import Mathlib

/-!
Verification development for the sync-code-dotfiles extension.

The core synchronization engine (pattern matching, remote tree traversal,
path mapping, conflict handling, the pull and push orchestrators and the
persisted sync state) is shallowly embedded below.  Strings are represented
as `List Char`; file systems, the remote repository tree and the
interactive conflict dialog are represented by explicit environment data.
-/

namespace CursorSync

/-- Line terminators of JavaScript regular expressions: the dot class
produced for a `?` wildcard and for the globstar replacement matches any
character except these four. -/
def isLineTerm (c : Char) : Bool :=
  c == '\n' || c == '\r' || c == Char.ofNat 0x2028 || c == Char.ofNat 0x2029

/-- Split a path on the separator character, keeping empty segments,
as String.prototype.split does. -/
def splitSegs : List Char → List (List Char)
  | [] => [[]]
  | c :: rest =>
    if c = '/' then [] :: splitSegs rest
    else
      match splitSegs rest with
      | s :: ss => (c :: s) :: ss
      | [] => [[c]]

/-- Join segments with the separator character (Array.prototype.join). -/
def joinSegs : List (List Char) → List Char
  | [] => []
  | [s] => s
  | s :: s2 :: ss => s ++ '/' :: joinSegs (s2 :: ss)

/-- Test for a non-separator character. -/
def notSlash (c : Char) : Bool := c ≠ '/'

/-- The characters after the last separator (String manipulation used by
beforeLastSlash below and by the local push-side key of the rules file). -/
def afterLastSlash (p : List Char) : List Char :=
  (p.reverse.takeWhile notSlash).reverse

/-- The characters before the last separator: the JavaScript expression
pattern.substring(0, pattern.lastIndexOf(the separator)). -/
def beforeLastSlash (p : List Char) : List Char :=
  ((p.reverse.dropWhile notSlash).drop 1).reverse

/-- One step of path normalization over segments, as in the Node path
module: empty and dot segments are dropped, a dot-dot segment pops the
previous segment (or is kept for a relative path, or dropped at the root
of an absolute path).  The accumulator holds the output in reverse. -/
def normLoop (abs : Bool) : List (List Char) → List (List Char) → List (List Char)
  | acc, [] => acc.reverse
  | acc, s :: rest =>
    if s = [] ∨ s = ['.'] then normLoop abs acc rest
    else if s = ['.', '.'] then
      match acc with
      | [] => normLoop abs (if abs then [] else [s]) rest
      | top :: acc2 =>
        if top = ['.', '.'] then normLoop abs (s :: top :: acc2) rest
        else normLoop abs acc2 rest
    else normLoop abs (s :: acc) rest

/-- Node path.posix.normalize, restricted to inputs without a trailing
separator (the only inputs this development produces). -/
def normalizePath (p : List Char) : List Char :=
  if p = [] then ['.']
  else
    let abs := p.head? = some '/'
    let segs := normLoop abs [] (splitSegs p)
    let r := joinSegs segs
    if abs then
      if r = [] then ['/'] else '/' :: r
    else if r = [] then ['.'] else r

/-- Node path.posix.join for two parts: concatenate with a separator and
normalize.  Empty parts are skipped, as in the Node implementation. -/
def pathJoin (a b : List Char) : List Char :=
  if a = [] then
    if b = [] then ['.'] else normalizePath b
  else if b = [] then normalizePath a
  else normalizePath (a ++ '/' :: b)

/-- Node path.posix.dirname, restricted to inputs without trailing
separators. -/
def dirname (p : List Char) : List Char :=
  if '/' ∈ p then
    let d := beforeLastSlash p
    if d = [] then ['/'] else d
  else ['.']

/-- Length of the common prefix of two segment lists. -/
def commonPrefixLen : List (List Char) → List (List Char) → Nat
  | a :: as, b :: bs => if a = b then commonPrefixLen as bs + 1 else 0
  | _, _ => 0

/-- Node path.posix.relative for already-normalized absolute arguments:
drop the common prefix, go up once per remaining segment of the source,
then down the remaining segments of the destination. -/
def relPath (src dst : List Char) : List Char :=
  let fs := (splitSegs src).filter (fun s => s ≠ [])
  let ts := (splitSegs dst).filter (fun s => s ≠ [])
  let k := commonPrefixLen fs ts
  joinSegs ( List.replicate (fs.length - k) ['.', '.'] ++ ts.drop k)

/-- A valid path segment: nonempty and neither of the two dot forms. -/
def validSeg (s : List Char) : Bool :=
  s ≠ [] && s ≠ ['.'] && s ≠ ['.', '.']

/-! ## Pattern matcher

GitHubClient.matchPattern (and the identical copy in SyncManager) builds a
regular expression from the glob pattern by escaping dots, replacing a
double star by a match-anything atom, a single star by a run of
non-separator characters and a question mark by the any-character class,
then tests the anchored regex against the path.  The compiled regex is
modelled as a token list; compilation returns none when the pattern
contains a regex metacharacter that the replace chain leaves unescaped.
For some of these patterns the constructor genuinely raises (an
unmatched parenthesis), while for others (a quantifier character such as
the plus sign, or balanced parentheses) the source builds a valid regex
and returns a boolean with operator semantics this token model does not
cover: none therefore marks the boundary of the modelled fragment, not
always a raising call.  Theorems that quantify over pattern lists
restrict themselves to the literal fragment explicitly, through a
stated metacharacter-freedom hypothesis, and never through this none. -/

/-- One atom of the compiled anchored regex. -/
inductive RTok where
  | lit (c : Char)
  | anyChar
  | starNoSlash
  | starAll
  deriving DecidableEq

/-- Regex metacharacters that the replace chain passes through unescaped;
a pattern containing one of these leaves the scope of the faithful model
(an unmatched parenthesis, for example, makes the RegExp constructor
raise a SyntaxError). -/
def isRegexMeta (c : Char) : Bool :=
  c == '(' || c == ')' || c == '[' || c == '\\' || c == '+' ||
  c == '|' || c == '^' || c == '$' || c == '{' || c == '}'

/-- Compile a glob pattern as the replace chain of matchPattern does:
a leftmost double star becomes the match-anything atom, a remaining
single star the non-separator run, a question mark the any-character
class, a dot an escaped literal dot, and every other plain character a
literal.  none models the RegExp constructor raising. -/
def compileGlob : List Char → Option (List RTok)
  | [] => some []
  | c :: rest =>
    if c = '*' then
      match rest with
      | '*' :: rest2 => (compileGlob rest2).map (fun ts => RTok.starAll :: ts)
      | [] => some [RTok.starNoSlash]
      | d :: rest2 => (compileGlob (d :: rest2)).map (fun ts => RTok.starNoSlash :: ts)
    else if c = '?' then (compileGlob rest).map (fun ts => RTok.anyChar :: ts)
    else if isRegexMeta c then none
    else (compileGlob rest).map (fun ts => RTok.lit c :: ts)

/-- Backtracking loop for the non-separator star: either the rest of the
regex (the continuation) matches here, or the star consumes one more
non-separator character. -/
def starLoopNS (k : List Char → Bool) : List Char → Bool
  | [] => k []
  | x :: xs => k (x :: xs) || (x != '/' && starLoopNS k xs)

/-- Backtracking loop for the match-anything atom: as starLoopNS, but the
dot class excludes only the four line terminators. -/
def starLoopAll (k : List Char → Bool) : List Char → Bool
  | [] => k []
  | x :: xs => k (x :: xs) || (!isLineTerm x && starLoopAll k xs)

/-- The anchored regex test.  The any-character class excludes the four
JavaScript line terminators; the negated class of the single star excludes
only the separator. -/
def globMatch : List RTok → List Char → Bool
  | [], s => s.isEmpty
  | RTok.lit c :: ts, s =>
    match s with
    | [] => false
    | x :: xs => x == c && globMatch ts xs
  | RTok.anyChar :: ts, s =>
    match s with
    | [] => false
    | x :: xs => !isLineTerm x && globMatch ts xs
  | RTok.starNoSlash :: ts, s => starLoopNS (globMatch ts) s
  | RTok.starAll :: ts, s => starLoopAll (globMatch ts) s

/-- GitHubClient.matchPattern and SyncManager.matchPattern (identical
code): an exact string comparison first, then the compiled anchored regex;
none models the call raising during RegExp construction. -/
def matchPattern (path pattern : List Char) : Option Bool :=
  if pattern = path then some true
  else
    match compileGlob pattern with
    | none => none
    | some ts => some (globMatch ts path)

/-- GitHubClient.matchesPatterns and SyncManager.matchesAnyPattern
(identical code): first match wins; a raising matchPattern propagates. -/
def matchesPatterns (path : List Char) : List (List Char) → Option Bool
  | [] => some false
  | p :: ps =>
    match matchPattern path p with
    | none => none
    | some true => some true
    | some false => matchesPatterns path ps

/-- The pattern normalization applied by fetchAllFiles and
collectLocalFiles: the regex replaces an optional leading dot followed by
the word cursor and an optional separator with the empty string. -/
def normalizePattern (p : List Char) : List Char :=
  if "cursor".data.isPrefixOf p then
    match p.drop 6 with
    | '/' :: t => t
    | t => t
  else if ".cursor".data.isPrefixOf p then
    match p.drop 7 with
    | '/' :: t => t
    | t => t
  else p

/-- Whether the pattern contains a double star (String.prototype.includes). -/
def containsGlobstar : List Char → Bool
  | [] => false
  | [_] => false
  | c :: d :: rest =>
    if c = '*' ∧ d = '*' then true else containsGlobstar (d :: rest)

/-- The characters before the leftmost double star
(pattern.split at the double star, first element). -/
def beforeFirstGlobstar : List Char → List Char
  | [] => []
  | [c] => [c]
  | c :: d :: rest =>
    if c = '*' ∧ d = '*' then [] else c :: beforeFirstGlobstar (d :: rest)

/-- Remove one trailing separator (the replace of the anchored trailing
slash regex by the empty string). -/
def stripTrailingSlash (s : List Char) : List Char :=
  if s.getLast? = some '/' then s.dropLast else s

/-- The test GitHubClient.shouldProcessDirectory applies to one pattern:
for a globstar pattern, compare the directory with the pattern text before
the double star; for a slashed pattern, compare with the text before the
last slash; other patterns never justify descending. -/
def dirCouldMatch (path pat : List Char) : Bool :=
  if containsGlobstar pat then
    let base := stripTrailingSlash (beforeFirstGlobstar pat)
    base = [] || base.isPrefixOf path || path.isPrefixOf base
  else if '/' ∈ pat then
    let dir := beforeLastSlash pat
    path = dir || (dir ++ ['/']).isPrefixOf path || (path ++ ['/']).isPrefixOf dir
  else false

/-- GitHubClient.shouldProcessDirectory: the loop over the patterns with
an early return true. -/
def shouldProcessDirectory (path : List Char) (patterns : List (List Char)) : Bool :=
  patterns.any (fun pat => dirCouldMatch path pat)

/-! ## GitHub client

The remote content API is modelled at two levels.  listDirectory is a pure
function of the HTTP response it receives, translated from the branching
of GitHubClient.listDirectory.  The recursive traversal fetchAllFiles is
modelled over a tree of remote nodes; a missing node stands for a path
whose listing call returns the not-found status (listDirectory then
yields the empty list), an error node for a path whose listing call
returns any other non-success status (listDirectory then raises with that
status).  Raw file fetches are modelled as returning the content stored
in the tree; per-file raw-fetch failures, which fetchAllFiles logs and
swallows, are not modelled. -/

/-- Errors surfaced by the modelled client: a transport error carrying
the HTTP status, or a SyntaxError raised while compiling a pattern. -/
inductive GHError where
  | http (status : Nat)
  | regex
  deriving DecidableEq

instance exceptDecEq {ε α : Type} [DecidableEq ε] [DecidableEq α] :
    DecidableEq (Except ε α) := fun a b =>
  match a, b with
  | Except.ok x, Except.ok y =>
    if h : x = y then isTrue (by rw [h]) else isFalse (by simp [h])
  | Except.error x, Except.error y =>
    if h : x = y then isTrue (by rw [h]) else isFalse (by simp [h])
  | Except.ok _, Except.error _ => isFalse (by simp)
  | Except.error _, Except.ok _ => isFalse (by simp)

/-- One entry of a directory listing, after the field projection in
listDirectory (GitHubFile in types.ts). -/
structure GitHubFile where
  name : List Char
  path : List Char
  sha : List Char
  size : Nat
  isDir : Bool
  deriving DecidableEq

/-- An HTTP response to a listing call: status plus decoded JSON body.
The single-object body that the API returns for a file path is
represented as a one-element list (the code wraps it in an array). -/
structure ListResponse where
  status : Nat
  body : List GitHubFile
  deriving DecidableEq

/-- The ok flag of the fetch API response: status in the 200 range. -/
def responseOk (status : Nat) : Bool :=
  200 ≤ status && status ≤ 299

/-- GitHubClient.listDirectory as a function of the received response:
a successful response yields its entries, the not-found status yields the
empty list, and any other status raises a transport error carrying the
status code. -/
def listDirectory (resp : ListResponse) : Except Nat (List GitHubFile) :=
  if responseOk resp.status then Except.ok resp.body
  else if resp.status = 404 then Except.ok []
  else Except.error resp.status

/-- A node of the remote repository tree under the configured base path.
dir carries the entries of a listable directory; missing is a directory
path whose listing call returns the not-found status; errStatus is a
directory path whose listing call returns another non-success status. -/
inductive RNode where
  | file (content : List Char)
  | dir (entries : List (List Char × RNode))
  | missing
  | errStatus (status : Nat)

/-- Join a directory path and an entry name as the traversal does (the
base-path-relative path of the entry). -/
def relJoin (dp name : List Char) : List Char :=
  if dp = [] then name else dp ++ '/' :: name

mutual

/-- The recursive processDirectory of GitHubClient.fetchAllFiles over one
node: a missing directory lists as empty (the not-found branch of
listDirectory), an error node propagates the transport error, and a
directory processes its entries in order. -/
def processDir (qs : List (List Char)) : RNode → List Char →
    Except GHError (List (List Char × List Char))
  | RNode.file _, _ => Except.ok []
  | RNode.missing, _ => Except.ok []
  | RNode.errStatus s, _ => Except.error (GHError.http s)
  | RNode.dir es, dp => processEntries qs es dp

/-- The loop body of processDirectory: a subdirectory is descended into
exactly when shouldProcessDirectory accepts it; a file is fetched when the
normalized patterns match its path; a raising pattern match propagates. -/
def processEntries (qs : List (List Char)) :
    List (List Char × RNode) → List Char →
    Except GHError (List (List Char × List Char))
  | [], _ => Except.ok []
  | (name, node) :: rest, dp =>
    let rel := relJoin dp name
    match node with
    | RNode.file c =>
      match matchesPatterns rel qs with
      | none => Except.error GHError.regex
      | some m =>
        match processEntries qs rest dp with
        | Except.error e => Except.error e
        | Except.ok out => Except.ok ((if m then [(rel, c)] else []) ++ out)
    | _ =>
      if shouldProcessDirectory rel qs then
        match processDir qs node rel with
        | Except.error e => Except.error e
        | Except.ok sub =>
          match processEntries qs rest dp with
          | Except.error e => Except.error e
          | Except.ok out => Except.ok (sub ++ out)
      else processEntries qs rest dp

end

/-- GitHubClient.fetchAllFiles: normalize the patterns, then traverse the
tree from the base path root.  The map of fetched files is represented as
the association list of its insertions in traversal order. -/
def fetchAllFiles (patterns : List (List Char)) (root : RNode) :
    Except GHError (List (List Char × List Char)) :=
  processDir (patterns.map normalizePattern) root []

/-- Walk the remote tree along a segment list. -/
def treeLookup : RNode → List (List Char) → Option RNode
  | node, [] => some node
  | RNode.dir es, s :: rest =>
    match es.lookup s with
    | some child => treeLookup child rest
    | none => none
  | _, _ :: _ => none

/-- GitHubClient.fetchFileRaw against the remote tree: the stored content
of a file node, or none for the call raising (non-success status from the
raw endpoint). -/
def fetchFileRaw (root : RNode) (p : List Char) : Option (List Char) :=
  match treeLookup root (splitSegs p) with
  | some (RNode.file c) => some c
  | _ => none

/-! ## Repository URL resolver (parseRepoUrl in config.ts) -/

/-- A repository identity. -/
structure RepoInfo where
  owner : List Char
  repo : List Char
  deriving DecidableEq

/-- The anchored shorthand form: one separator, an owner without
separators, a repository name without separators and without dots. -/
def matchShorthand (url : List Char) : Option RepoInfo :=
  let owner := url.takeWhile notSlash
  match url.dropWhile notSlash with
  | '/' :: rest =>
    if owner ≠ [] ∧ rest ≠ [] ∧ ∀ c ∈ rest, c ≠ '/' ∧ c ≠ '.' then
      some ⟨owner, rest⟩
    else none
  | _ => none

/-- After a matched host marker: a nonempty run of non-separator
characters, a separator, then a nonempty run of characters that are
neither separators nor dots (the greedy groups of the web and SSH-like
regexes). -/
def matchOwnerRepo (s : List Char) : Option RepoInfo :=
  let owner := s.takeWhile notSlash
  if owner = [] then none
  else
    match s.dropWhile notSlash with
    | '/' :: rest =>
      let repo := rest.takeWhile (fun c => c ≠ '/' && c ≠ '.')
      if repo = [] then none else some ⟨owner, repo⟩
    | _ => none

/-- Scan the url left to right for the marker followed by the owner and
repository groups, as the unanchored regex engine does. -/
def scanFor (marker : List Char) : List Char → Option RepoInfo
  | [] => none
  | c :: rest =>
    if marker.isPrefixOf (c :: rest) then
      match matchOwnerRepo ((c :: rest).drop marker.length) with
      | some r => some r
      | none => scanFor marker rest
    else scanFor marker rest

/-- Strip one trailing dot-git suffix from the repository name. -/
def stripDotGit (r : List Char) : List Char :=
  if ".git".data.isSuffixOf r then r.take (r.length - 4) else r

/-- parseRepoUrl: the empty string is unconfigured; otherwise the
shorthand, web and SSH-like shapes are tried in order, the first matching
shape wins, and a trailing dot-git suffix is stripped from the matched
repository name. -/
def parseRepoUrl (url : List Char) : Option RepoInfo :=
  if url = [] then none
  else
    let result :=
      match matchShorthand url with
      | some r => some r
      | none =>
        match scanFor "github.com/".data url with
        | some r => some r
        | none => scanFor "github.com:".data url
    result.map (fun r => ⟨r.owner, stripDotGit r.repo⟩)

/-! ## Sync manager

Types from types.ts, the path mappers, the persisted sync state and the
pull and push orchestrators.  Asynchronous host and network effects are
modelled by environment data: the local file system of pull is an
association list keyed by full local path, the local tree scanned by push
mirrors the scanned sync directory, write and push failures are oracles
from paths to optional error messages, and the interactive conflict
dialog is an oracle returning the resolution its flow produces. -/

inductive SyncTarget where
  | global
  | workspace
  deriving DecidableEq

inductive Direction where
  | pull
  | push
  deriving DecidableEq

/-- The configured conflict-resolution policy. -/
inductive Policy where
  | ask
  | keepLocal
  | useRemote
  deriving DecidableEq

/-- The outcome of conflict resolution. -/
inductive Resolution where
  | keepLocal
  | useRemote
  | skip
  deriving DecidableEq

/-- ConflictInfo from types.ts. -/
structure Conflict where
  path : List Char
  localContent : List Char
  remoteContent : List Char
  resolution : Resolution
  deriving DecidableEq

/-- SyncResult from types.ts. -/
structure SyncResult where
  success : Bool
  filesProcessed : Nat
  errors : List (List Char)
  conflicts : List Conflict
  deriving DecidableEq

/-- SyncState from types.ts. -/
structure SyncState where
  lastSyncedAt : Option Nat
  lastSyncTarget : Option SyncTarget
  lastSyncDirection : Option Direction
  lastSyncFiles : List (List Char)
  lastError : Option (List Char)
  deriving DecidableEq

/-- getDefaultState in config.ts. -/
def getDefaultState : SyncState :=
  ⟨none, none, none, [], none⟩

/-- A partial SyncState record: a field holds some value exactly when the
corresponding key is present in the JavaScript object literal. -/
structure StatePatch where
  lastSyncedAt : Option (Option Nat) := none
  lastSyncTarget : Option (Option SyncTarget) := none
  lastSyncDirection : Option (Option Direction) := none
  lastSyncFiles : Option (List (List Char)) := none
  lastError : Option (Option (List Char)) := none

/-- updateSyncState in config.ts: spread the current state, then the
partial record, so present fields override and absent fields keep their
current values.  The host key-value store is modelled as always
accepting the update. -/
def updateSyncState (current : SyncState) (partialState : StatePatch) : SyncState :=
  { lastSyncedAt := partialState.lastSyncedAt.getD current.lastSyncedAt
    lastSyncTarget := partialState.lastSyncTarget.getD current.lastSyncTarget
    lastSyncDirection := partialState.lastSyncDirection.getD current.lastSyncDirection
    lastSyncFiles := partialState.lastSyncFiles.getD current.lastSyncFiles
    lastError := partialState.lastError.getD current.lastError }

/-- The patch written by the catch blocks of pull and push: only the
error message. -/
def errorPatch (msg : List Char) : StatePatch :=
  { lastError := some (some msg) }

/-- Join the error list with the separator used by the success-path state
update. -/
def joinErrors : List (List Char) → List Char
  | [] => []
  | [e] => e
  | e :: e2 :: rest => e ++ "; ".data ++ joinErrors (e2 :: rest)

/-- The patch written at the end of a completed pull or push. -/
def fullPatch (now : Nat) (target : SyncTarget) (dir : Direction)
    (files : List (List Char)) (errors : List (List Char)) : StatePatch :=
  { lastSyncedAt := some (some now)
    lastSyncTarget := some (some target)
    lastSyncDirection := some (some dir)
    lastSyncFiles := some files
    lastError := some (if errors = [] then none else some (joinErrors errors)) }

/-- SyncManager.mapToLocalPath: the root rules file maps beside the sync
root, every other remote path maps below it. -/
def mapToLocalPath (remotePath targetDir : List Char) : List Char :=
  if remotePath = ".cursorrules".data then
    pathJoin (dirname targetDir) ".cursorrules".data
  else pathJoin targetDir remotePath

/-- SyncManager.mapToRemotePath: the inverse of mapToLocalPath. -/
def mapToRemotePath (localPath targetDir : List Char) : List Char :=
  let parent := dirname targetDir
  if localPath = pathJoin parent ".cursorrules".data then ".cursorrules".data
  else relPath targetDir localPath

/-- A node of the local sync directory scanned by push. -/
inductive LNode where
  | file (content : List Char)
  | dir (entries : List (List Char × LNode))

/-- The environment of one sync invocation: the resolved configuration
fields the orchestrators read, the host workspace, the remote tree, the
local file system and the effect oracles. -/
structure SyncEnv where
  filesToSync : List (List Char)
  conflictResolution : Policy
  githubToken : List Char
  homeDir : List Char
  workspaceRoot : Option (List Char)
  remote : RNode
  localFs : List (List Char × List Char)
  writeError : List Char → Option (List Char)
  pushErrorO : List Char → Option (List Char)
  localTree : LNode
  cursorrulesLocal : Option (List Char)
  targetDirExists : Bool
  ask : List Char → Direction → Resolution
  now : Nat

/-- SyncManager.getTargetPath: the global target lives beside the home
directory, the workspace target requires an open workspace folder. -/
def getTargetPath (env : SyncEnv) : SyncTarget → Except (List Char) (List Char)
  | SyncTarget.global => Except.ok (pathJoin env.homeDir ".cursor".data)
  | SyncTarget.workspace =>
    match env.workspaceRoot with
    | none => Except.error "No workspace folder open".data
    | some w => Except.ok (pathJoin w ".cursor".data)

/-- SyncManager.handleConflict: the two non-interactive policies return
their fixed resolution; the interactive flow (warning dialog, optional
diff view, second dialog) is modelled by the environment oracle, which
returns the resolution the flow produces. -/
def handleConflict (env : SyncEnv) (filePath : List Char)
    (defaultResolution : Policy) (direction : Direction) : Resolution :=
  match defaultResolution with
  | Policy.keepLocal => Resolution.keepLocal
  | Policy.useRemote => Resolution.useRemote
  | Policy.ask => env.ask filePath direction

/-- Look a path up in the modelled local file system
(fs.existsSync plus fs.promises.readFile). -/
def fsGet : List (List Char × List Char) → List Char → Option (List Char)
  | [], _ => none
  | (p, c) :: rest, q => if p = q then some c else fsGet rest q

/-- Overwrite or create a file in the modelled local file system
(fs.promises.writeFile). -/
def fsSet : List (List Char × List Char) → List Char → List Char →
    List (List Char × List Char)
  | [], q, v => [(q, v)]
  | (p, c) :: rest, q, v => if p = q then (q, v) :: rest else (p, c) :: fsSet rest q v

/-- The write at the end of a pull iteration: a failing write appends a
prefixed error, a successful write stores the remote content and counts
the file. -/
def doWrite (env : SyncEnv) (fs : List (List Char × List Char))
    (res : SyncResult) (relativePath localPath remoteContent : List Char) :
    List (List Char × List Char) × SyncResult :=
  match env.writeError localPath with
  | some m =>
    (fs, { res with errors := res.errors ++ [relativePath ++ ": ".data ++ m] })
  | none =>
    (fsSet fs localPath remoteContent,
     { res with filesProcessed := res.filesProcessed + 1 })

/-- One iteration of the pull loop: map the remote path, detect a
conflict against the existing local content, record it, and write unless
the resolution keeps the local side. -/
def pullStep (env : SyncEnv) (targetPath : List Char)
    (acc : List (List Char × List Char) × SyncResult)
    (entry : List Char × List Char) : List (List Char × List Char) × SyncResult :=
  let fs := acc.1
  let res := acc.2
  let relativePath := entry.1
  let remoteContent := entry.2
  let localPath := mapToLocalPath relativePath targetPath
  match fsGet fs localPath with
  | none => doWrite env fs res relativePath localPath remoteContent
  | some localContent =>
    if localContent = remoteContent then
      doWrite env fs res relativePath localPath remoteContent
    else
      let resolution :=
        handleConflict env relativePath env.conflictResolution Direction.pull
      let res2 := { res with conflicts := res.conflicts ++
        [⟨relativePath, localContent, remoteContent, resolution⟩] }
      if resolution = Resolution.useRemote then
        doWrite env fs res2 relativePath localPath remoteContent
      else (fs, res2)

/-- The error message of a client failure as pull and push observe it. -/
def ghMessage : GHError → List Char
  | GHError.http s => "GitHub API error: ".data ++ (toString s).data
  | GHError.regex => "Invalid regular expression".data

/-- The outcome of a pull: the returned SyncResult, the persisted state
after the final updateSyncState, and the local file system after all
writes. -/
structure PullOutcome where
  result : SyncResult
  state : SyncState
  fs : List (List Char × List Char)
  deriving DecidableEq

/-- SyncManager.pull: resolve the target directory (created recursively,
modelled as always succeeding), fetch all matching remote files, run the
per-file loop, set success from the accumulated errors and persist the
full state; a setup or traversal exception is caught, appended as the
sole error and persisted as the error-only patch. -/
def pull (env : SyncEnv) (target : SyncTarget) (s0 : SyncState) : PullOutcome :=
  let r0 : SyncResult := ⟨false, 0, [], []⟩
  match getTargetPath env target with
  | Except.error m =>
    ⟨{ r0 with errors := [m] }, updateSyncState s0 (errorPatch m), env.localFs⟩
  | Except.ok targetPath =>
    match fetchAllFiles env.filesToSync env.remote with
    | Except.error e =>
      let m := ghMessage e
      ⟨{ r0 with errors := [m] }, updateSyncState s0 (errorPatch m), env.localFs⟩
    | Except.ok remoteFiles =>
      let out := remoteFiles.foldl (pullStep env targetPath) (env.localFs, r0)
      let res := { out.2 with success := out.2.errors.isEmpty }
      let patch := fullPatch env.now target Direction.pull
        (remoteFiles.map Prod.fst) res.errors
      ⟨res, updateSyncState s0 patch, out.1⟩

/-! ### Push side -/

mutual

/-- The recursive scanDir of SyncManager.collectLocalFiles: every
subdirectory is entered, every file whose forward-slash relative path
matches the normalized patterns is collected; a raising pattern match
propagates. -/
def scanTree (qs : List (List Char)) : LNode → List Char →
    Except GHError (List (List Char × List Char))
  | LNode.file _, _ => Except.ok []
  | LNode.dir es, base => scanEntries qs es base

/-- The loop body of scanDir. -/
def scanEntries (qs : List (List Char)) : List (List Char × LNode) → List Char →
    Except GHError (List (List Char × List Char))
  | [], _ => Except.ok []
  | (name, node) :: rest, base =>
    let rel := relJoin base name
    match node with
    | LNode.dir es2 =>
      match scanTree qs (LNode.dir es2) rel with
      | Except.error e => Except.error e
      | Except.ok sub =>
        match scanEntries qs rest base with
        | Except.error e => Except.error e
        | Except.ok out => Except.ok (sub ++ out)
    | LNode.file c =>
      match matchesPatterns rel qs with
      | none => Except.error GHError.regex
      | some m =>
        match scanEntries qs rest base with
        | Except.error e => Except.error e
        | Except.ok out => Except.ok ((if m then [(rel, c)] else []) ++ out)

end

/-- SyncManager.collectLocalFiles: normalize the patterns, collect the
root rules file first when it exists and matches, then scan the sync
directory tree. -/
def collectLocalFiles (env : SyncEnv) (patterns : List (List Char)) :
    Except GHError (List (List Char × List Char)) :=
  let qs := patterns.map normalizePattern
  let first :=
    match env.cursorrulesLocal with
    | none => Except.ok []
    | some content =>
      match matchesPatterns ".cursorrules".data qs with
      | none => Except.error GHError.regex
      | some true => Except.ok [(".cursorrules".data, content)]
      | some false => Except.ok []
  match first with
  | Except.error e => Except.error e
  | Except.ok b =>
    match scanTree qs env.localTree [] with
    | Except.error e => Except.error e
    | Except.ok rest => Except.ok (b ++ rest)

/-- One iteration of the push loop: fetch the existing remote content
(any failure is tolerated and means the file is new), detect and record a
conflict, then push unless the resolution keeps the remote side;
the attempted create-or-update call is recorded. -/
def pushStep (env : SyncEnv)
    (acc : SyncResult × List (List Char × List Char))
    (entry : List Char × List Char) : SyncResult × List (List Char × List Char) :=
  let res := acc.1
  let pushed := acc.2
  let relativePath := entry.1
  let localContent := entry.2
  let decision : SyncResult × Bool :=
    match fetchFileRaw env.remote relativePath with
    | none => (res, true)
    | some remoteContent =>
      if remoteContent = localContent then (res, true)
      else
        let resolution :=
          handleConflict env relativePath env.conflictResolution Direction.push
        ({ res with conflicts := res.conflicts ++
            [⟨relativePath, localContent, remoteContent, resolution⟩] },
         decide (resolution = Resolution.keepLocal))
  let res2 := decision.1
  if decision.2 then
    let pushed2 := pushed ++ [(relativePath, localContent)]
    match env.pushErrorO relativePath with
    | some m =>
      ({ res2 with errors := res2.errors ++ [relativePath ++ ": ".data ++ m] }, pushed2)
    | none => ({ res2 with filesProcessed := res2.filesProcessed + 1 }, pushed2)
  else (res2, pushed)

/-- The outcome of a push: the returned SyncResult, the persisted state,
and the create-or-update calls issued (GitHubClient.pushFile). -/
structure PushOutcome where
  result : SyncResult
  state : SyncState
  pushed : List (List Char × List Char)
  deriving DecidableEq

/-- The token-precondition message thrown by push. -/
def tokenRequiredMsg : List Char :=
  "GitHub token required for push. Configure cursorSync.githubToken in settings.".data

/-- The missing-target-directory message thrown by push. -/
def missingDirMsg (targetPath : List Char) : List Char :=
  "Target directory does not exist: ".data ++ targetPath

/-- SyncManager.push: require a configured token and an existing target
directory, collect the matching local files, run the per-file loop, set
success from the accumulated errors and persist the full state; a setup
or scan exception is caught, appended as the sole error and persisted as
the error-only patch. -/
def push (env : SyncEnv) (target : SyncTarget) (s0 : SyncState) : PushOutcome :=
  let r0 : SyncResult := ⟨false, 0, [], []⟩
  let abort : List Char → PushOutcome := fun m =>
    ⟨{ r0 with errors := [m] }, updateSyncState s0 (errorPatch m), []⟩
  if env.githubToken = [] then abort tokenRequiredMsg
  else
    match getTargetPath env target with
    | Except.error m => abort m
    | Except.ok targetPath =>
      if env.targetDirExists = false then abort (missingDirMsg targetPath)
      else
        match collectLocalFiles env env.filesToSync with
        | Except.error e => abort (ghMessage e)
        | Except.ok localFiles =>
          let out := localFiles.foldl (pushStep env) (r0, [])
          let res := { out.1 with success := out.1.errors.isEmpty }
          let patch := fullPatch env.now target Direction.push
            (localFiles.map Prod.fst) res.errors
          ⟨res, updateSyncState s0 patch, out.2⟩

/-- The default pattern list of the filesToSync setting. -/
def defaultPatterns : List (List Char) :=
  [".cursorrules".data, "rules/**".data, "mcp.json".data, "prompts/**".data]

/-! ## Auxiliary predicates for the theorems -/

/-- A string without glob wildcards. -/
def wildcardFree (l : List Char) : Bool :=
  l.all (fun c => c ≠ '*' && c ≠ '?')

/-- The pattern class for which the directory-descent test of the remote
traversal cannot under-descend.  Two restrictions are required, and both
are stated here openly.  First, the pattern is built only from literal
characters and the glob wildcards: it contains no regex metacharacter,
since the replace chain passes those through unescaped and they then act
as regex operators rather than literals (the quantifier in the pattern
a+/x, for example, lets the source match the file aa/x while the descent
test compares the directory aa against the literal text a+ and rejects
it — an under-descent outside this class).  Second, the directory part of
the pattern (before the first double star, or before the last slash)
carries no wildcard, and a pattern with neither separators nor a double
star has no question mark (whose compiled any-character class can match a
separator). -/
def goodPattern (p : List Char) : Bool :=
  p.all (fun c => !isRegexMeta c) &&
  (if containsGlobstar p then wildcardFree (beforeFirstGlobstar p)
   else if '/' ∈ p then wildcardFree (beforeLastSlash p)
   else decide ('?' ∉ p))

def goodPatterns (ps : List (List Char)) : Bool :=
  ps.all goodPattern

/-- Membership of a file in the remote tree: the relative path from the
given node to a file node with the given content.  Entry names are
nonempty, as the content API guarantees. -/
inductive FileAt : RNode → List Char → List Char → Prop where
  | here {es : List (List Char × RNode)} {name c : List Char} :
      name ≠ [] → (name, RNode.file c) ∈ es → FileAt (RNode.dir es) name c
  | there {es : List (List Char × RNode)} {name sub c : List Char} {node : RNode} :
      name ≠ [] → (name, node) ∈ es → FileAt node sub c →
      FileAt (RNode.dir es) (name ++ '/' :: sub) c

/-- A normalized nonempty relative path: slash-separated segments, each
nonempty and not a dot form, as the paths of git tree entries are. -/
def validRelPath (p : List Char) : Bool :=
  (splitSegs p).all validSeg

/-- A normalized absolute path below the root: a leading separator
followed by a normalized nonempty relative path. -/
def validAbsPath (p : List Char) : Bool :=
  match p with
  | c :: rest => c = '/' && validRelPath rest
  | [] => false

/-- A concrete environment: default patterns, policy useRemote, no token,
remote tree holding only the root rules file with content Y, local file
system holding the workspace rules file with content X. -/
def c1Env : SyncEnv :=
  { filesToSync := defaultPatterns
    conflictResolution := Policy.useRemote
    githubToken := []
    homeDir := "/home/u".data
    workspaceRoot := some "/ws".data
    remote := RNode.dir [(".cursorrules".data, RNode.file "Y".data)]
    localFs := [("/ws/.cursorrules".data, "X".data)]
    writeError := fun _ => none
    pushErrorO := fun _ => none
    localTree := LNode.dir []
    cursorrulesLocal := some "X".data
    targetDirExists := true
    ask := fun _ _ => Resolution.skip
    now := 1000 }

/-- c1Env with a configured token and a missing workspace folder. -/
def c9Env : SyncEnv :=
  { c1Env with githubToken := "tok".data, workspaceRoot := none,
               targetDirExists := false }

/-- The characters after the leftmost double star. -/
def afterFirstGlobstar : List Char → List Char
  | [] => []
  | [_] => []
  | c :: d :: rest =>
    if c = '*' ∧ d = '*' then rest else afterFirstGlobstar (d :: rest)

/-- A regex atom that can never consume a separator character. -/
def slashSafeTok : RTok → Bool
  | RTok.lit c => c ≠ '/'
  | RTok.anyChar => false
  | RTok.starNoSlash => true
  | RTok.starAll => false

/-! # Supporting lemmas -/

theorem splitSegs_ne_nil (p : List Char) : splitSegs p ≠ [] := by
  cases p with
  | nil => simp [splitSegs]
  | cons c rest =>
    simp only [splitSegs]
    by_cases h : c = '/'
    · simp [h]
    · simp only [if_neg h]
      cases splitSegs rest <;> simp

theorem joinSegs_cons (s : List Char) (ss : List (List Char)) (h : ss ≠ []) :
    joinSegs (s :: ss) = s ++ '/' :: joinSegs ss := by
  cases ss with
  | nil => exact absurd rfl h
  | cons s2 ss2 => rfl

theorem joinSegs_splitSegs (p : List Char) : joinSegs (splitSegs p) = p := by
  induction p with
  | nil => rfl
  | cons c rest ih =>
    simp only [splitSegs]
    by_cases h : c = '/'
    · subst h
      rw [if_pos rfl, joinSegs_cons _ _ (splitSegs_ne_nil rest), ih]
      rfl
    · rw [if_neg h]
      cases hs : splitSegs rest with
      | nil => exact absurd hs (splitSegs_ne_nil rest)
      | cons s ss =>
        rw [hs] at ih
        cases ss with
        | nil => simp [joinSegs] at ih ⊢; simpa using ih
        | cons s2 ss2 =>
          simp only [joinSegs] at ih ⊢
          simpa using ih

theorem splitSegs_append (a b : List Char) :
    splitSegs (a ++ '/' :: b) = splitSegs a ++ splitSegs b := by
  induction a with
  | nil => simp [splitSegs]
  | cons c rest ih =>
    simp only [List.cons_append, splitSegs]
    by_cases h : c = '/'
    · simp [h, ih]
    · rw [if_neg h, if_neg h, List.append_eq, ih]
      cases hs : splitSegs rest with
      | nil => exact absurd hs (splitSegs_ne_nil rest)
      | cons s ss => simp

/-- Every segment produced by splitting on the separator is free of the
separator character. -/
theorem splitSegs_no_slash (p : List Char) :
    ∀ s ∈ splitSegs p, '/' ∉ s := by
  induction p with
  | nil => simp [splitSegs]
  | cons c rest ih =>
    simp only [splitSegs]
    by_cases h : c = '/'
    · simp only [if_pos h, List.mem_cons]
      rintro s (rfl | hs)
      · simp
      · exact ih s hs
    · rw [if_neg h]
      cases hs : splitSegs rest with
      | nil => exact absurd hs (splitSegs_ne_nil rest)
      | cons s ss =>
        intro t ht
        rcases List.mem_cons.mp ht with rfl | ht2
        · intro hmem
          rcases List.mem_cons.mp hmem with rfl | hmem2
          · exact h rfl
          · exact ih s (hs ▸ List.mem_cons_self s ss) hmem2
        · exact ih t (hs ▸ List.mem_cons_of_mem s ht2)

theorem splitSegs_joinSegs (ss : List (List Char)) (hne : ss ≠ [])
    (hs : ∀ s ∈ ss, '/' ∉ s) : splitSegs (joinSegs ss) = ss := by
  induction ss with
  | nil => exact absurd rfl hne
  | cons s tail ih =>
    cases tail with
    | nil =>
      simp only [joinSegs]
      have hss : '/' ∉ s := hs s (by simp)
      clear ih hne hs
      induction s with
      | nil => rfl
      | cons c cs ihc =>
        simp only [splitSegs]
        rw [if_neg (by intro hc; exact hss (hc ▸ List.mem_cons_self c cs))]
        rw [ihc (fun hm => hss (List.mem_cons_of_mem c hm))]
    | cons s2 tail2 =>
      rw [joinSegs_cons s (s2 :: tail2) (by simp), splitSegs_append,
        ih (by simp) (fun t ht => hs t (List.mem_cons_of_mem s ht))]
      have hss : '/' ∉ s := hs s (by simp)
      clear ih hne hs
      induction s with
      | nil => rfl
      | cons c cs ihc =>
        simp only [splitSegs]
        rw [if_neg (by intro hc; exact hss (hc ▸ List.mem_cons_self c cs))]
        cases hcs : splitSegs cs with
        | nil => exact absurd hcs (splitSegs_ne_nil cs)
        | cons u us =>
          have := ihc (fun hm => hss (List.mem_cons_of_mem c hm))
          rw [hcs] at this
          simp only [List.cons_append] at this ⊢
          rw [List.cons.injEq] at this
          simp [this.1, this.2]

theorem notSlash_true {c : Char} (h : c ≠ '/') : notSlash c = true := by
  simp [notSlash, h]

theorem notSlash_false : notSlash '/' = false := by
  simp [notSlash]

theorem takeWhile_until_slash (b t : List Char) (hb : '/' ∉ b) :
    List.takeWhile notSlash (b ++ '/' :: t) = b := by
  induction b with
  | nil => simp [List.takeWhile_cons, notSlash_false]
  | cons c cs ih =>
    have hc : c ≠ '/' := fun h => hb (h ▸ List.mem_cons_self c cs)
    have hcs : '/' ∉ cs := fun h => hb (List.mem_cons_of_mem c h)
    simp only [List.cons_append, List.takeWhile_cons, notSlash_true hc, if_true]
    rw [ih hcs]

theorem dropWhile_until_slash (b t : List Char) (hb : '/' ∉ b) :
    List.dropWhile notSlash (b ++ '/' :: t) = '/' :: t := by
  induction b with
  | nil => simp [List.dropWhile_cons, notSlash_false]
  | cons c cs ih =>
    have hc : c ≠ '/' := fun h => hb (h ▸ List.mem_cons_self c cs)
    have hcs : '/' ∉ cs := fun h => hb (List.mem_cons_of_mem c h)
    simp only [List.cons_append, List.dropWhile_cons, notSlash_true hc, if_true]
    exact ih hcs

theorem beforeLastSlash_spec (a b : List Char) (hb : '/' ∉ b) :
    beforeLastSlash (a ++ '/' :: b) = a ∧ afterLastSlash (a ++ '/' :: b) = b := by
  have hbr : '/' ∉ b.reverse := fun h => hb (List.mem_reverse.mp h)
  have hrev : (a ++ '/' :: b).reverse = b.reverse ++ '/' :: a.reverse := by
    simp
  constructor
  · unfold beforeLastSlash
    rw [hrev, dropWhile_until_slash _ _ hbr]
    simp
  · unfold afterLastSlash
    rw [hrev, takeWhile_until_slash _ _ hbr]
    simp

theorem exists_last_slash (p : List Char) (hp : '/' ∈ p) :
    ∃ a b, p = a ++ '/' :: b ∧ '/' ∉ b := by
  induction p with
  | nil => cases hp
  | cons c rest ih =>
    by_cases hr : '/' ∈ rest
    · obtain ⟨a, b, hab, hb⟩ := ih hr
      exact ⟨c :: a, b, by rw [hab]; rfl, hb⟩
    · have hc : c = '/' := by
        rcases List.mem_cons.mp hp with h | h
        · exact h.symm
        · exact absurd h hr
      exact ⟨[], rest, by rw [hc]; rfl, hr⟩

/-- Decomposition of a string at its last separator. -/
theorem lastSlash_decomp (p : List Char) (hp : '/' ∈ p) :
    p = beforeLastSlash p ++ '/' :: afterLastSlash p ∧ '/' ∉ afterLastSlash p := by
  obtain ⟨a, b, hab, hb⟩ := exists_last_slash p hp
  obtain ⟨h1, h2⟩ := beforeLastSlash_spec a b hb
  subst hab
  rw [h1, h2]
  exact ⟨rfl, hb⟩

theorem normLoop_valid (abs : Bool) (segs : List (List Char))
    (h : ∀ s ∈ segs, validSeg s = true) :
    ∀ acc, normLoop abs acc segs = acc.reverse ++ segs := by
  induction segs with
  | nil => intro acc; simp [normLoop]
  | cons s rest ih =>
    intro acc
    have hs := h s (List.mem_cons_self s rest)
    simp only [validSeg, Bool.and_eq_true, decide_eq_true_eq] at hs
    simp only [normLoop, if_neg (by tauto : ¬(s = [] ∨ s = ['.'])), if_neg hs.2]
    rw [ih (fun t ht => h t (List.mem_cons_of_mem s ht)) (s :: acc)]
    simp

theorem commonPrefixLen_self_append (a rest : List (List Char)) :
    commonPrefixLen a (a ++ rest) = a.length := by
  induction a with
  | nil => cases rest <;> simp [commonPrefixLen]
  | cons s as ih => simp [commonPrefixLen, ih]

theorem isPrefixOf_exists {a b : List Char} :
    a.isPrefixOf b = true ↔ ∃ t, b = a ++ t := by
  induction a generalizing b with
  | nil => simp [List.isPrefixOf]
  | cons c cs ih =>
    cases b with
    | nil => simp [List.isPrefixOf]
    | cons x xs =>
      simp only [List.isPrefixOf, Bool.and_eq_true, beq_iff_eq, ih, List.cons_append,
        List.cons.injEq]
      constructor
      · rintro ⟨rfl, t, rfl⟩
        exact ⟨t, rfl, rfl⟩
      · rintro ⟨t, rfl, rfl⟩
        exact ⟨rfl, t, rfl⟩

theorem prefix_total {a b f : List Char} (ha : ∃ t, f = a ++ t) (hb : ∃ t, f = b ++ t) :
    (∃ t, b = a ++ t) ∨ (∃ t, a = b ++ t) := by
  obtain ⟨t1, rfl⟩ := ha
  obtain ⟨t2, h⟩ := hb
  rcases List.append_eq_append_iff.mp h.symm with ⟨u, hu, _⟩ | ⟨u, hu, _⟩
  · exact Or.inr ⟨u, hu⟩
  · exact Or.inl ⟨u, hu⟩

theorem prefix_snoc {a b : List Char} {x : Char} (h : ∃ t, b ++ [x] = a ++ t) :
    a = b ++ [x] ∨ ∃ t, b = a ++ t := by
  obtain ⟨t, ht⟩ := h
  rcases List.eq_nil_or_concat t with rfl | ⟨t0, y, rfl⟩
  · exact Or.inl (by rw [ht, List.append_nil])
  · right
    have h2 : b ++ [x] = (a ++ t0) ++ [y] := by
      rw [ht, List.concat_eq_append, List.append_assoc]
    have hb2 : b = a ++ t0 := by
      have := congrArg List.dropLast h2
      simpa using this
    exact ⟨t0, hb2⟩

theorem stripTrailingSlash_prefix (s : List Char) :
    ∃ t, s = stripTrailingSlash s ++ t := by
  unfold stripTrailingSlash
  by_cases h : s.getLast? = some '/'
  · rw [if_pos h]
    rcases List.eq_nil_or_concat s with rfl | ⟨s0, y, rfl⟩
    · simp at h
    · refine ⟨[y], ?_⟩
      simp
  · rw [if_neg h]
    exact ⟨[], by simp⟩

theorem globMatch_lits_append (xs : List Char) (ts : List RTok) (P : List Char) :
    globMatch (xs.map RTok.lit ++ ts) P = true ↔
    ∃ Q, P = xs ++ Q ∧ globMatch ts Q = true := by
  induction xs generalizing P with
  | nil => simp
  | cons c cs ih =>
    cases P with
    | nil => simp [globMatch]
    | cons x xs2 =>
      simp only [List.map_cons, List.cons_append, List.append_eq, globMatch,
        Bool.and_eq_true, beq_iff_eq, ih, List.cons.injEq]
      constructor
      · rintro ⟨hxc, Q, hxs, hQ⟩
        exact ⟨Q, ⟨hxc, hxs⟩, hQ⟩
      · rintro ⟨Q, ⟨hxc, hxs⟩, hQ⟩
        exact ⟨hxc, Q, hxs, hQ⟩

theorem wildcardFree_cons {c : Char} {cs : List Char} (h : wildcardFree (c :: cs) = true) :
    c ≠ '*' ∧ c ≠ '?' ∧ wildcardFree cs = true := by
  simp only [wildcardFree, List.all_cons, Bool.and_eq_true, decide_eq_true_eq] at h ⊢
  exact ⟨h.1.1, h.1.2, h.2⟩

theorem compileGlob_append_lits (xs : List Char) (hw : wildcardFree xs = true)
    (ys : List Char) (ts : List RTok) (h : compileGlob (xs ++ ys) = some ts) :
    ∃ ts2, compileGlob ys = some ts2 ∧ ts = xs.map RTok.lit ++ ts2 := by
  induction xs generalizing ts with
  | nil => exact ⟨ts, h, by simp⟩
  | cons c cs ih =>
    obtain ⟨hc1, hc2, hw2⟩ := wildcardFree_cons hw
    rw [List.cons_append] at h
    unfold compileGlob at h
    rw [if_neg hc1, if_neg hc2] at h
    by_cases hm : isRegexMeta c = true
    · rw [if_pos hm] at h
      cases h
    · rw [if_neg hm] at h
      obtain ⟨ts0, hts0, rfl⟩ := Option.map_eq_some'.mp h
      obtain ⟨ts2, hts2, rfl⟩ := ih hw2 ts0 hts0
      exact ⟨ts2, hts2, by simp⟩

theorem globstar_decomp (p : List Char) (h : containsGlobstar p = true) :
    p = beforeFirstGlobstar p ++ '*' :: '*' :: afterFirstGlobstar p := by
  induction p with
  | nil => simp [containsGlobstar] at h
  | cons c rest ih =>
    cases rest with
    | nil => simp [containsGlobstar] at h
    | cons d r2 =>
      by_cases hcd : c = '*' ∧ d = '*'
      · obtain ⟨rfl, rfl⟩ := hcd
        simp [beforeFirstGlobstar, afterFirstGlobstar]
      · have h2 : containsGlobstar (d :: r2) = true := by
          unfold containsGlobstar at h
          rwa [if_neg hcd] at h
        simp only [beforeFirstGlobstar, afterFirstGlobstar, if_neg hcd]
        rw [List.cons_append]
        exact congrArg (c :: ·) (ih h2)

theorem starLoopNS_no_slash (k : List Char → Bool) (hk : ∀ g, k g = true → '/' ∉ g)
    (f : List Char) (h : starLoopNS k f = true) : '/' ∉ f := by
  induction f with
  | nil => simp
  | cons x xs ih =>
    simp only [starLoopNS, Bool.or_eq_true, Bool.and_eq_true, bne_iff_ne] at h
    rcases h with h | ⟨hx, h⟩
    · exact hk _ h
    · intro hm
      rcases List.mem_cons.mp hm with rfl | hm2
      · exact hx rfl
      · exact ih h hm2

theorem globMatch_slash_safe (ts : List RTok) (hts : ∀ t ∈ ts, slashSafeTok t = true) :
    ∀ f, globMatch ts f = true → '/' ∉ f := by
  induction ts with
  | nil =>
    intro f h
    cases f with
    | nil => simp
    | cons x xs => simp [globMatch] at h
  | cons t ts2 ih =>
    have hts2 : ∀ t2 ∈ ts2, slashSafeTok t2 = true :=
      fun t2 h2 => hts t2 (List.mem_cons_of_mem t h2)
    have ht := hts t (List.mem_cons_self t ts2)
    intro f h
    cases t with
    | lit c =>
      cases f with
      | nil => simp [globMatch] at h
      | cons x xs =>
        simp only [globMatch, Bool.and_eq_true, beq_iff_eq] at h
        obtain ⟨rfl, h2⟩ := h
        have hc : x ≠ '/' := by
          simpa [slashSafeTok] using ht
        intro hm
        rcases List.mem_cons.mp hm with rfl | hm2
        · exact hc rfl
        · exact ih hts2 xs h2 hm2
    | anyChar => simp [slashSafeTok] at ht
    | starAll => simp [slashSafeTok] at ht
    | starNoSlash =>
      exact starLoopNS_no_slash (globMatch ts2) (fun g hg => ih hts2 g hg) f h

theorem compileGlob_slash_safe (p : List Char) :
    '/' ∉ p → containsGlobstar p = false → '?' ∉ p →
    ∀ ts, compileGlob p = some ts → ∀ t ∈ ts, slashSafeTok t = true := by
  induction p with
  | nil =>
    intro _ _ _ ts h
    have : ts = [] := by simpa [compileGlob] using h.symm
    simp [this]
  | cons c rest ih =>
    intro hs hg hq ts h
    have hcs : c ≠ '/' := fun he => hs (he ▸ List.mem_cons_self c rest)
    have hrs : '/' ∉ rest := fun hm => hs (List.mem_cons_of_mem c hm)
    have hcq : c ≠ '?' := fun he => hq (he ▸ List.mem_cons_self c rest)
    have hrq : '?' ∉ rest := fun hm => hq (List.mem_cons_of_mem c hm)
    unfold compileGlob at h
    by_cases hc : c = '*'
    · subst hc
      rw [if_pos rfl] at h
      split at h
      · rename_i rest2
        simp [containsGlobstar] at hg
      · have hts : ts = [RTok.starNoSlash] := by
          simpa using h.symm
        simp [hts, slashSafeTok]
      · rename_i d rest2 hd
        obtain ⟨ts0, h0, rfl⟩ := Option.map_eq_some'.mp h
        intro t ht
        rcases List.mem_cons.mp ht with rfl | ht2
        · simp [slashSafeTok]
        · have hg2 : containsGlobstar (d :: rest2) = false := by
            simp only [containsGlobstar] at hg
            rwa [if_neg (fun hx => hd hx.2)] at hg
          exact ih hrs hg2 hrq ts0 h0 t ht2
    · rw [if_neg hc] at h
      rw [if_neg hcq] at h
      by_cases hm : isRegexMeta c = true
      · rw [if_pos hm] at h
        cases h
      · rw [if_neg hm] at h
        obtain ⟨ts0, h0, rfl⟩ := Option.map_eq_some'.mp h
        have hg2 : containsGlobstar rest = false := by
          cases rest with
          | nil => rfl
          | cons d r2 =>
            unfold containsGlobstar at hg
            rwa [if_neg (fun hx => hc hx.1)] at hg
        intro t ht
        rcases List.mem_cons.mp ht with rfl | ht2
        · simp [slashSafeTok, hcs]
        · exact ih hrs hg2 hrq ts0 h0 t ht2

theorem matchPattern_inv {f p : List Char} (h : matchPattern f p = some true) :
    p = f ∨ ∃ ts, compileGlob p = some ts ∧ globMatch ts f = true := by
  unfold matchPattern at h
  by_cases hpf : p = f
  · exact Or.inl hpf
  · rw [if_neg hpf] at h
    cases hc : compileGlob p with
    | none => rw [hc] at h; cases h
    | some ts =>
      rw [hc] at h
      exact Or.inr ⟨ts, rfl, by simpa using h⟩

theorem wildcardFree_append {a b : List Char} (ha : wildcardFree a = true)
    (hb : wildcardFree b = true) : wildcardFree (a ++ b) = true := by
  simp only [wildcardFree, List.all_append, Bool.and_eq_true] at *
  exact ⟨ha, hb⟩

/-- The heart of the descent analysis: a good pattern that matches a file
path below a directory justifies descending into that directory. -/
theorem dirCouldMatch_of_match (p f d rest : List Char)
    (hg : goodPattern p = true)
    (hm : matchPattern f p = some true)
    (hf : f = d ++ '/' :: rest) :
    dirCouldMatch d p = true := by
  have hdf : ∃ t, f = d ++ t := ⟨'/' :: rest, hf⟩
  by_cases hgs : containsGlobstar p = true
  · -- globstar pattern: the wildcard-free base is a prefix of the file path
    have hw : wildcardFree (beforeFirstGlobstar p) = true := by
      unfold goodPattern at hg
      simp only [Bool.and_eq_true] at hg
      obtain ⟨-, hg2⟩ := hg
      rwa [if_pos hgs] at hg2
    have hpre : ∃ t, f = beforeFirstGlobstar p ++ t := by
      rcases matchPattern_inv hm with hpf | ⟨ts, hc, hgm⟩
      · exact ⟨'*' :: '*' :: afterFirstGlobstar p,
          by rw [← hpf]; exact globstar_decomp p hgs⟩
      · rw [globstar_decomp p hgs] at hc
        obtain ⟨ts2, _, rfl⟩ := compileGlob_append_lits _ hw _ ts hc
        obtain ⟨Q, hfQ, _⟩ := (globMatch_lits_append _ _ _).mp hgm
        exact ⟨Q, hfQ⟩
    obtain ⟨t1, hst⟩ := stripTrailingSlash_prefix (beforeFirstGlobstar p)
    have hpre2 : ∃ t, f = stripTrailingSlash (beforeFirstGlobstar p) ++ t := by
      obtain ⟨t, hft⟩ := hpre
      exact ⟨t1 ++ t, by rw [hft, ← List.append_assoc, ← hst]⟩
    unfold dirCouldMatch
    rw [if_pos hgs]
    rcases prefix_total hpre2 hdf with ⟨t, htd⟩ | ⟨t, htb⟩
    · have hb : (stripTrailingSlash (beforeFirstGlobstar p)).isPrefixOf d = true :=
        isPrefixOf_exists.mpr ⟨t, htd⟩
      simp [hb]
    · have hb : d.isPrefixOf (stripTrailingSlash (beforeFirstGlobstar p)) = true :=
        isPrefixOf_exists.mpr ⟨t, htb⟩
      simp [hb]
  · by_cases hsl : '/' ∈ p
    · -- slashed pattern: the wildcard-free directory part plus the
      -- separator is a prefix of the file path
      have hw : wildcardFree (beforeLastSlash p) = true := by
        unfold goodPattern at hg
        simp only [Bool.and_eq_true] at hg
        obtain ⟨-, hg2⟩ := hg
        rwa [if_neg hgs, if_pos hsl] at hg2
      obtain ⟨hdecomp, hlast⟩ := lastSlash_decomp p hsl
      have hpre : ∃ t, f = (beforeLastSlash p ++ ['/']) ++ t := by
        rcases matchPattern_inv hm with hpf | ⟨ts, hc, hgm⟩
        · refine ⟨afterLastSlash p, ?_⟩
          rw [← hpf]
          conv_lhs => rw [hdecomp]
          rw [List.append_assoc]
          rfl
        · rw [hdecomp] at hc
          have hw2 : wildcardFree (beforeLastSlash p ++ ['/']) = true :=
            wildcardFree_append hw (by decide)
          have hc2 : compileGlob ((beforeLastSlash p ++ ['/']) ++ afterLastSlash p) =
              some ts := by
            rw [List.append_assoc]
            exact hc
          obtain ⟨ts2, _, rfl⟩ := compileGlob_append_lits _ hw2 _ ts hc2
          obtain ⟨Q, hfQ, _⟩ := (globMatch_lits_append _ _ _).mp hgm
          exact ⟨Q, hfQ⟩
      have hdpre : ∃ t, f = (d ++ ['/']) ++ t := by
        refine ⟨rest, ?_⟩
        rw [hf, List.append_assoc]
        rfl
      unfold dirCouldMatch
      rw [if_neg hgs, if_pos hsl]
      rcases prefix_total hpre hdpre with ⟨t, ht⟩ | ⟨t, ht⟩
      · rcases prefix_snoc ⟨t, ht⟩ with heq | ⟨t2, ht2⟩
        · have hdd : d = beforeLastSlash p := by
            have h2 := congrArg List.dropLast heq
            simpa using h2.symm
          simp [hdd]
        · have hb : (beforeLastSlash p ++ ['/']).isPrefixOf d = true :=
            isPrefixOf_exists.mpr ⟨t2, ht2⟩
          simp [hb]
      · rcases prefix_snoc ⟨t, ht⟩ with heq | ⟨t2, ht2⟩
        · have hdd : d = beforeLastSlash p := by
            have h2 := congrArg List.dropLast heq
            simpa using h2
          simp [hdd]
        · have hb : (d ++ ['/']).isPrefixOf (beforeLastSlash p) = true :=
            isPrefixOf_exists.mpr ⟨t2, ht2⟩
          simp [hb]
    · -- separator-free pattern without wildcards that can cross a
      -- separator: it cannot match a path inside a directory at all
      have hq : '?' ∉ p := by
        unfold goodPattern at hg
        simp only [Bool.and_eq_true] at hg
        obtain ⟨-, hg2⟩ := hg
        rw [if_neg hgs, if_neg hsl] at hg2
        exact of_decide_eq_true hg2
      have hfs : '/' ∈ f := by
        rw [hf]
        simp
      rcases matchPattern_inv hm with hpf | ⟨ts, hc, hgm⟩
      · exact absurd (hpf ▸ hfs) hsl
      · have hsafe := compileGlob_slash_safe p hsl (by simpa using hgs) hq ts hc
        exact absurd hfs (globMatch_slash_safe ts hsafe f hgm)

theorem matchesPatterns_exists {f : List Char} {qs : List (List Char)}
    (h : matchesPatterns f qs = some true) :
    ∃ p ∈ qs, matchPattern f p = some true := by
  induction qs with
  | nil => cases h
  | cons p ps ih =>
    unfold matchesPatterns at h
    cases hm : matchPattern f p with
    | none => rw [hm] at h; cases h
    | some b =>
      rw [hm] at h
      cases b with
      | true => exact ⟨p, List.mem_cons_self p ps, hm⟩
      | false =>
        obtain ⟨q, hq, hmq⟩ := ih h
        exact ⟨q, List.mem_cons_of_mem p hq, hmq⟩

/-- The list-level no-under-descend property. -/
theorem ancestors_descended {qs : List (List Char)} {f d rest : List Char}
    (hg : goodPatterns qs = true) (hm : matchesPatterns f qs = some true)
    (hf : f = d ++ '/' :: rest) : shouldProcessDirectory d qs = true := by
  obtain ⟨p, hp, hmp⟩ := matchesPatterns_exists hm
  have hgp : goodPattern p = true := by
    simp only [goodPatterns, List.all_eq_true] at hg
    exact hg p hp
  exact List.any_eq_true.mpr ⟨p, hp, dirCouldMatch_of_match p f d rest hgp hmp hf⟩

theorem relJoin_assoc (dp name sub : List Char) (hn : name ≠ []) :
    relJoin dp (name ++ '/' :: sub) = relJoin (relJoin dp name) sub := by
  unfold relJoin
  by_cases hdp : dp = []
  · rw [if_pos hdp, if_pos hdp, if_neg (by simp [hn])]
  · rw [if_neg hdp, if_neg hdp, if_neg (by simp [hdp]), List.append_assoc]
    rfl

theorem relJoin_ne_nil (dp name : List Char) (hn : name ≠ []) :
    relJoin dp name ≠ [] := by
  unfold relJoin
  by_cases hdp : dp = []
  · rw [if_pos hdp]
    exact hn
  · rw [if_neg hdp]
    simp [hdp]

theorem relJoin_split (dp name sub : List Char) (hn : name ≠ []) :
    relJoin dp (name ++ '/' :: sub) = relJoin dp name ++ '/' :: sub := by
  rw [relJoin_assoc dp name sub hn]
  have hxne := relJoin_ne_nil dp name hn
  generalize relJoin dp name = x at hxne ⊢
  unfold relJoin
  rw [if_neg hxne]

theorem processEntries_cons_tail (qs : List (List Char))
    (e : List Char × RNode) (rest : List (List Char × RNode))
    (dp : List Char) (out : List (List Char × List Char))
    (h : processEntries qs (e :: rest) dp = Except.ok out) :
    ∃ pre out2, processEntries qs rest dp = Except.ok out2 ∧ out = pre ++ out2 := by
  obtain ⟨n, nd⟩ := e
  cases nd with
  | file c =>
    simp only [processEntries] at h
    cases hm : matchesPatterns (relJoin dp n) qs with
    | none => rw [hm] at h; cases h
    | some m =>
      rw [hm] at h
      cases hr : processEntries qs rest dp with
      | error e2 => rw [hr] at h; cases h
      | ok out2 =>
        rw [hr] at h
        exact ⟨if m then [(relJoin dp n, c)] else [], out2, rfl, by simpa using h.symm⟩
  | dir es2 =>
    simp only [processEntries] at h
    by_cases hs : shouldProcessDirectory (relJoin dp n) qs = true
    · rw [if_pos hs] at h
      cases hp : processDir qs (RNode.dir es2) (relJoin dp n) with
      | error e2 => rw [hp] at h; cases h
      | ok sub =>
        rw [hp] at h
        cases hr : processEntries qs rest dp with
        | error e2 => rw [hr] at h; cases h
        | ok out2 =>
          rw [hr] at h
          exact ⟨sub, out2, rfl, by simpa using h.symm⟩
    · rw [if_neg hs] at h
      exact ⟨[], out, h, rfl⟩
  | missing =>
    simp only [processEntries] at h
    by_cases hs : shouldProcessDirectory (relJoin dp n) qs = true
    · rw [if_pos hs] at h
      simp only [processDir] at h
      cases hr : processEntries qs rest dp with
      | error e2 => rw [hr] at h; cases h
      | ok out2 =>
        rw [hr] at h
        exact ⟨[], out2, rfl, by simpa using h.symm⟩
    · rw [if_neg hs] at h
      exact ⟨[], out, h, rfl⟩
  | errStatus s =>
    simp only [processEntries] at h
    by_cases hs : shouldProcessDirectory (relJoin dp n) qs = true
    · rw [if_pos hs] at h
      simp [processDir] at h
    · rw [if_neg hs] at h
      exact ⟨[], out, h, rfl⟩

theorem processEntries_head_file (qs : List (List Char)) (n c : List Char)
    (rest : List (List Char × RNode)) (dp : List Char)
    (out : List (List Char × List Char))
    (h : processEntries qs ((n, RNode.file c) :: rest) dp = Except.ok out)
    (hm : matchesPatterns (relJoin dp n) qs = some true) :
    (relJoin dp n, c) ∈ out := by
  simp only [processEntries] at h
  rw [hm] at h
  cases hr : processEntries qs rest dp with
  | error e2 => rw [hr] at h; cases h
  | ok out2 =>
    rw [hr] at h
    cases h
    simp

theorem processEntries_head_dir (qs : List (List Char)) (n : List Char)
    (es2 : List (List Char × RNode)) (rest : List (List Char × RNode))
    (dp : List Char) (out : List (List Char × List Char))
    (h : processEntries qs ((n, RNode.dir es2) :: rest) dp = Except.ok out)
    (hs : shouldProcessDirectory (relJoin dp n) qs = true) :
    ∃ sub, processDir qs (RNode.dir es2) (relJoin dp n) = Except.ok sub ∧
      ∀ x ∈ sub, x ∈ out := by
  simp only [processEntries] at h
  rw [if_pos hs] at h
  cases hp : processDir qs (RNode.dir es2) (relJoin dp n) with
  | error e2 => rw [hp] at h; cases h
  | ok sub =>
    rw [hp] at h
    cases hr : processEntries qs rest dp with
    | error e2 => rw [hr] at h; cases h
    | ok out2 =>
      rw [hr] at h
      cases h
      exact ⟨sub, rfl, fun x hx => List.mem_append_left out2 hx⟩

theorem processEntries_mem_file (qs : List (List Char)) (name c : List Char) :
    ∀ (es : List (List Char × RNode)) (dp : List Char)
      (out : List (List Char × List Char)),
      processEntries qs es dp = Except.ok out →
      (name, RNode.file c) ∈ es →
      matchesPatterns (relJoin dp name) qs = some true →
      (relJoin dp name, c) ∈ out := by
  intro es
  induction es with
  | nil =>
    intro dp out _ hmem _
    cases hmem
  | cons e rest ih =>
    intro dp out h hmem hm
    rcases List.mem_cons.mp hmem with heq | hmem2
    · subst heq
      exact processEntries_head_file qs name c rest dp out h hm
    · obtain ⟨pre, out2, hrest, rfl⟩ := processEntries_cons_tail qs e rest dp out h
      exact List.mem_append_right pre (ih dp out2 hrest hmem2 hm)

theorem processEntries_mem_dir (qs : List (List Char)) (name : List Char)
    (es2 : List (List Char × RNode)) :
    ∀ (es : List (List Char × RNode)) (dp : List Char)
      (out : List (List Char × List Char)),
      processEntries qs es dp = Except.ok out →
      (name, RNode.dir es2) ∈ es →
      shouldProcessDirectory (relJoin dp name) qs = true →
      ∃ sub, processDir qs (RNode.dir es2) (relJoin dp name) = Except.ok sub ∧
        ∀ x ∈ sub, x ∈ out := by
  intro es
  induction es with
  | nil =>
    intro dp out _ hmem _
    cases hmem
  | cons e rest ih =>
    intro dp out h hmem hs
    rcases List.mem_cons.mp hmem with heq | hmem2
    · subst heq
      exact processEntries_head_dir qs name es2 rest dp out h hs
    · obtain ⟨pre, out2, hrest, rfl⟩ := processEntries_cons_tail qs e rest dp out h
      obtain ⟨sub, hp, hmono⟩ := ih dp out2 hrest hmem2 hs
      exact ⟨sub, hp, fun x hx => List.mem_append_right pre (hmono x hx)⟩

/-- A file of the remote tree whose path the normalized patterns match is
collected by the traversal whenever the traversal returns, provided the
pattern list is in the no-under-descend class. -/
theorem processDir_mem (qs : List (List Char)) (hg : goodPatterns qs = true) :
    ∀ {node : RNode} {sub c : List Char}, FileAt node sub c →
    ∀ (dp : List Char) (out : List (List Char × List Char)),
      matchesPatterns (relJoin dp sub) qs = some true →
      processDir qs node dp = Except.ok out →
      (relJoin dp sub, c) ∈ out := by
  intro node sub c hfa
  induction hfa with
  | here hn hmem =>
    rename_i es name c2
    intro dp out hm hpd
    have hpe : processEntries qs es dp = Except.ok out := by
      simpa [processDir] using hpd
    exact processEntries_mem_file qs name c2 es dp out hpe hmem hm
  | there hn hmem hsub ih =>
    rename_i es name sub2 c2 node2
    intro dp out hm hpd
    obtain ⟨es2, rfl⟩ : ∃ es2, node2 = RNode.dir es2 := by
      cases hsub with
      | here _ _ => exact ⟨_, rfl⟩
      | there _ _ _ => exact ⟨_, rfl⟩
    have hsplit : relJoin dp (name ++ '/' :: sub2) = relJoin dp name ++ '/' :: sub2 :=
      relJoin_split dp name sub2 hn
    have hanc : shouldProcessDirectory (relJoin dp name) qs = true :=
      ancestors_descended hg hm hsplit
    have hpe : processEntries qs es dp = Except.ok out := by
      simpa [processDir] using hpd
    obtain ⟨subout, hpd2, hmono⟩ :=
      processEntries_mem_dir qs name es2 es dp out hpe hmem hanc
    have hm2 : matchesPatterns (relJoin (relJoin dp name) sub2) qs = some true := by
      rw [← relJoin_assoc dp name sub2 hn]
      exact hm
    have hmem2 := ih (relJoin dp name) subout hm2 hpd2
    rw [relJoin_assoc dp name sub2 hn]
    exact hmono _ hmem2

theorem validSeg_ne_nil {s : List Char} (h : validSeg s = true) : s ≠ [] := by
  simp only [validSeg, Bool.and_eq_true, decide_eq_true_eq] at h
  exact h.1.1

theorem validRelPath_ne_nil {p : List Char} (h : validRelPath p = true) : p ≠ [] := by
  intro hp
  subst hp
  simp [validRelPath, splitSegs, validSeg] at h

theorem splitSegs_valid {p : List Char} (h : validRelPath p = true) :
    ∀ s ∈ splitSegs p, validSeg s = true :=
  List.all_eq_true.mp h

theorem splitSegs_no_slash_eq (b : List Char) (hb : '/' ∉ b) : splitSegs b = [b] := by
  have h := splitSegs_joinSegs [b] (by simp) (by simpa using hb)
  simpa [joinSegs] using h

theorem joinSegs_append_last (S : List (List Char)) (hS : S ≠ []) (l : List Char) :
    joinSegs (S ++ [l]) = joinSegs S ++ '/' :: l := by
  induction S with
  | nil => exact absurd rfl hS
  | cons s t ih =>
    cases t with
    | nil => simp [joinSegs]
    | cons s2 t2 =>
      rw [List.cons_append, joinSegs_cons s (s2 :: t2 ++ [l]) (by simp),
        joinSegs_cons s (s2 :: t2) (by simp), ih (by simp), List.append_assoc]
      rfl

theorem joinSegs_two_ne_nil (s : List Char) (ss : List (List Char)) (h : ss ≠ []) :
    joinSegs (s :: ss) ≠ [] := by
  rw [joinSegs_cons s ss h]
  simp

/-- Normalizing the separator-joined concatenation of an absolute path
and a relative path with valid segments appends the segment lists. -/
theorem pathJoin_abs (S : List (List Char)) (q : List Char)
    (hSv : ∀ s ∈ S, validSeg s = true) (hSs : ∀ s ∈ S, '/' ∉ s)
    (hq : validRelPath q = true) :
    pathJoin ('/' :: joinSegs S) q = '/' :: joinSegs (S ++ splitSegs q) := by
  have hqne := validRelPath_ne_nil hq
  have hqv := splitSegs_valid hq
  have hqs := splitSegs_no_slash q
  unfold pathJoin
  rw [if_neg (by simp), if_neg hqne]
  cases hS0 : S with
  | nil =>
    have hjoined : ('/' :: joinSegs ([] : List (List Char))) ++ '/' :: q =
        '/' :: '/' :: q := by
      simp [joinSegs]
    rw [hjoined]
    unfold normalizePath
    rw [if_neg (by simp)]
    have hsegs : splitSegs ('/' :: '/' :: q) = [] :: [] :: splitSegs q := by
      simp [splitSegs]
    have hnorm : normLoop true [] ([] :: [] :: splitSegs q) = splitSegs q := by
      show normLoop true [] ([] :: [] :: splitSegs q) = splitSegs q
      unfold normLoop
      rw [if_pos (Or.inl rfl)]
      unfold normLoop
      rw [if_pos (Or.inl rfl)]
      have := normLoop_valid true (splitSegs q) hqv []
      simpa using this
    have habs : (decide (('/' :: '/' :: q : List Char).head? = some '/')) = true := by
      simp
    simp only [hsegs, habs, hnorm, joinSegs_splitSegs]
    rw [if_pos (by simp), if_neg hqne, List.nil_append, joinSegs_splitSegs]
  | cons s0 S2 =>
    rw [← hS0]
    have hSne : S ≠ [] := by
      rw [hS0]
      simp
    have hjoined : ('/' :: joinSegs S) ++ '/' :: q = '/' :: (joinSegs S ++ '/' :: q) := by
      rfl
    rw [hjoined]
    unfold normalizePath
    rw [if_neg (by simp)]
    have hsegs : splitSegs ('/' :: (joinSegs S ++ '/' :: q)) =
        [] :: (S ++ splitSegs q) := by
      have h1 : splitSegs ('/' :: (joinSegs S ++ '/' :: q)) =
          [] :: splitSegs (joinSegs S ++ '/' :: q) := by
        simp [splitSegs]
      rw [h1, splitSegs_append, splitSegs_joinSegs S hSne hSs]
    have hnorm : normLoop true [] ([] :: (S ++ splitSegs q)) = S ++ splitSegs q := by
      unfold normLoop
      rw [if_pos (Or.inl rfl)]
      have hv : ∀ s ∈ S ++ splitSegs q, validSeg s = true := by
        intro s hs
        rcases List.mem_append.mp hs with hs2 | hs2
        · exact hSv s hs2
        · exact hqv s hs2
      have := normLoop_valid true (S ++ splitSegs q) hv []
      simpa using this
    have habs : (decide (('/' :: (joinSegs S ++ '/' :: q) : List Char).head? =
        some '/')) = true := by
      simp
    have hr : joinSegs (S ++ splitSegs q) ≠ [] := by
      rw [hS0, List.cons_append]
      exact joinSegs_two_ne_nil s0 (S2 ++ splitSegs q)
        (by simp [splitSegs_ne_nil q])
    simp only [hsegs, habs, hnorm]
    rw [if_pos (by simp), if_neg hr]

/-- The parent of an absolute path with valid segments drops the last
segment. -/
theorem dirname_abs (R : List (List Char)) (hR : R ≠ [])
    (hRs : ∀ s ∈ R, '/' ∉ s) :
    dirname ('/' :: joinSegs R) = '/' :: joinSegs R.dropLast := by
  rcases List.eq_nil_or_concat R with rfl | ⟨R0, rl, rfl⟩
  · exact absurd rfl hR
  · simp only [List.concat_eq_append] at hRs ⊢
    have hrl : '/' ∉ rl := hRs rl (by simp)
    rw [List.dropLast_concat]
    cases hR0 : R0 with
    | nil =>
      have hroot : ('/' :: joinSegs ([] ++ [rl]) : List Char) = [] ++ '/' :: rl := by
        simp [joinSegs]
      rw [hroot]
      unfold dirname
      rw [if_pos (by simp)]
      rw [(beforeLastSlash_spec [] rl hrl).1]
      simp [joinSegs]
    | cons r0 R2 =>
      rw [← hR0]
      have hR0ne : R0 ≠ [] := by
        rw [hR0]
        simp
      have hroot : ('/' :: joinSegs (R0 ++ [rl]) : List Char) =
          ('/' :: joinSegs R0) ++ '/' :: rl := by
        rw [joinSegs_append_last R0 hR0ne rl]
        rfl
      rw [hroot]
      unfold dirname
      rw [if_pos (by simp)]
      rw [(beforeLastSlash_spec ('/' :: joinSegs R0) rl hrl).1]
      rw [if_neg (by simp)]

/-- Relative path from an absolute base to a descendant with valid
segments: the extra segments joined. -/
theorem relPath_abs (S Q : List (List Char))
    (hSv : ∀ s ∈ S, validSeg s = true) (hSs : ∀ s ∈ S, '/' ∉ s)
    (hQv : ∀ s ∈ Q, validSeg s = true) (hQs : ∀ s ∈ Q, '/' ∉ s)
    (hS : S ≠ []) :
    relPath ('/' :: joinSegs S) ('/' :: joinSegs (S ++ Q)) = joinSegs Q := by
  unfold relPath
  have hsplit1 : splitSegs ('/' :: joinSegs S) = [] :: S := by
    simp [splitSegs, splitSegs_joinSegs S hS hSs]
  have hSQs : ∀ s ∈ S ++ Q, '/' ∉ s := by
    intro s hs
    rcases List.mem_append.mp hs with h2 | h2
    · exact hSs s h2
    · exact hQs s h2
  have hsplit2 : splitSegs ('/' :: joinSegs (S ++ Q)) = [] :: (S ++ Q) := by
    simp [splitSegs, splitSegs_joinSegs (S ++ Q) (by simp [hS]) hSQs]
  rw [hsplit1, hsplit2]
  have hfil1 : ([] :: S).filter (fun s => s ≠ []) = S := by
    simp only [List.filter_cons]
    rw [if_neg (by simp)]
    apply List.filter_eq_self.mpr
    intro s hs
    simpa using validSeg_ne_nil (hSv s hs)
  have hfil2 : ([] :: (S ++ Q)).filter (fun s => s ≠ []) = S ++ Q := by
    simp only [List.filter_cons]
    rw [if_neg (by simp)]
    apply List.filter_eq_self.mpr
    intro s hs
    rcases List.mem_append.mp hs with h2 | h2
    · simpa using validSeg_ne_nil (hSv s h2)
    · simpa using validSeg_ne_nil (hQv s h2)
  rw [hfil1, hfil2]
  simp only [commonPrefixLen_self_append]
  simp [List.drop_left]

/-! # Theorems -/

/-! ## C1 -/

/-- C1: the claimed scenario fails on the code.  Pattern normalization
rewrites the default pattern for the root rules file into the word rules,
the normalized default patterns therefore do not match the remote root
rules file, and a pull over a remote tree holding that file with content
Y, against a local copy with content X under policy useRemote, records no
conflict, processes no file and leaves the local content X in place. -/
theorem c1_cursorrules_never_pulled :
    normalizePattern ".cursorrules".data = "rules".data
    ∧ matchesPatterns ".cursorrules".data (defaultPatterns.map normalizePattern) = some false
    ∧ fetchAllFiles defaultPatterns (RNode.dir [(".cursorrules".data, RNode.file "Y".data)]) =
        Except.ok []
    ∧ (pull c1Env SyncTarget.workspace getDefaultState).result.conflicts = []
    ∧ (pull c1Env SyncTarget.workspace getDefaultState).result.filesProcessed = 0
    ∧ fsGet (pull c1Env SyncTarget.workspace getDefaultState).fs "/ws/.cursorrules".data =
        some "X".data := by
  decide

/-! ## C2 -/

/-- C2: the claim fails on the code for patterns carrying a wildcard in
their directory part.  The normalized pattern list holding only the
question-mark-slash pattern matches the file below directory a, yet the
descent test rejects that directory (the pattern has neither a double
star nor a wildcard-free directory prefix equal to a), and the traversal
over a tree holding exactly that matching file returns the empty map:
the file is missed. -/
theorem c2_counterexample :
    normalizePattern "?/x".data = "?/x".data
    ∧ matchesPatterns "a/x".data (["?/x".data].map normalizePattern) = some true
    ∧ "a/x".data = "a".data ++ '/' :: "x".data
    ∧ shouldProcessDirectory "a".data (["?/x".data].map normalizePattern) = false
    ∧ fetchAllFiles ["?/x".data]
        (RNode.dir [("a".data, RNode.dir [("x".data, RNode.file "c".data)])]) =
        Except.ok [] := by
  decide

/-- C2 (amended): for every pattern list whose normalized patterns are
built only from literal characters and the glob wildcards (no regex
metacharacter, which the replace chain would pass through unescaped as a
regex operator) and have wildcard-free directory parts (no star or
question mark before the first double star of a globstar pattern, none
before the last slash of a slashed pattern, and no question mark in a
pattern with neither), every remote file path whose normalized-pattern
match succeeds has all its proper ancestor directories accepted by
shouldProcessDirectory, and such a file is present in the result of
fetchAllFiles whenever the traversal returns successfully.  On this
class the token model coincides exactly with the regexes the source
builds; both restrictions are necessary: the question-mark-slash pattern
of the counterexample under-descends, and so does a pattern whose
directory part carries an unescaped quantifier character. -/
theorem c2_no_under_descend (ps : List (List Char)) (f : List Char)
    (hg : goodPatterns (ps.map normalizePattern) = true)
    (hm : matchesPatterns f (ps.map normalizePattern) = some true) :
    (∀ d rest, f = d ++ '/' :: rest →
      shouldProcessDirectory d (ps.map normalizePattern) = true)
    ∧ (∀ root c out, FileAt root f c → fetchAllFiles ps root = Except.ok out →
        (f, c) ∈ out) := by
  constructor
  · intro d rest hf
    exact ancestors_descended hg hm hf
  · intro root c out hfa hok
    have hrel : relJoin [] f = f := by
      unfold relJoin
      rw [if_pos rfl]
    have := processDir_mem (ps.map normalizePattern) hg hfa [] out (hrel ▸ hm) hok
    rw [hrel] at this
    exact this

/-- Witness for the amended C2 theorem: the default pattern list is in
the wildcard-free-directory class, the rules file path matches, its
ancestor directory passes the descent test, and the file is collected
from a concrete tree. -/
theorem c2_witness :
    shouldProcessDirectory "rules".data (defaultPatterns.map normalizePattern) = true
    ∧ ("rules/a.mdc".data, "A".data) ∈
        [("rules/a.mdc".data, "A".data)] := by
  constructor
  · exact (c2_no_under_descend defaultPatterns "rules/a.mdc".data (by decide)
      (by decide)).1 "rules".data "a.mdc".data (by decide)
  · have hfa : FileAt
        (RNode.dir [("rules".data, RNode.dir [("a.mdc".data, RNode.file "A".data)])])
        "rules/a.mdc".data "A".data := by
      have : "rules/a.mdc".data = "rules".data ++ '/' :: "a.mdc".data := by decide
      rw [this]
      exact FileAt.there (by decide) (List.mem_cons_self _ _)
        (FileAt.here (by decide) (List.mem_cons_self _ _))
    exact (c2_no_under_descend defaultPatterns "rules/a.mdc".data (by decide)
      (by decide)).2
      (RNode.dir [("rules".data, RNode.dir [("a.mdc".data, RNode.file "A".data)])])
      "A".data [("rules/a.mdc".data, "A".data)] hfa (by decide)

/-! ## C3 -/

/-- C3: the universal double-star clause fails on the code: the compiled
regex for the double star is an anchored run of dot classes, and the
JavaScript dot does not match a line terminator, so a path containing a
newline is rejected. -/
theorem c3_counterexample :
    matchPattern "a\nb".data "**".data = some false := by
  decide

theorem starLoopAll_total (P : List Char) (h : ∀ c ∈ P, isLineTerm c = false) :
    starLoopAll (globMatch []) P = true := by
  induction P with
  | nil => rfl
  | cons x xs ih =>
    have hx := h x (List.mem_cons_self x xs)
    simp only [starLoopAll, hx, Bool.not_false, Bool.true_and, Bool.or_eq_true]
    exact Or.inr (ih (fun c hc => h c (List.mem_cons_of_mem x hc)))

theorem globMatch_lits_eq (xs : List Char) (P : List Char) :
    globMatch (xs.map RTok.lit) P = true ↔ P = xs := by
  induction xs generalizing P with
  | nil =>
    cases P <;> simp [globMatch, List.isEmpty_iff]
  | cons c cs ih =>
    cases P with
    | nil => simp [globMatch]
    | cons x xs2 =>
      simp only [List.map_cons, globMatch, Bool.and_eq_true, beq_iff_eq, ih,
        List.cons.injEq]

/-- C3 (amended): the double-star pattern matches every path free of line
terminators (a path containing one of the four JavaScript line
terminators is the sole exception); the slashed globstar pattern matches
paths directly below and in nested subdirectories of its base and not a
path under a different directory; the wildcard-free pattern matches
exactly itself. -/
theorem c3_matcher_properties :
    (∀ P : List Char, (∀ c ∈ P, isLineTerm c = false) →
      matchPattern P "**".data = some true)
    ∧ matchPattern "rules/a.mdc".data "rules/**".data = some true
    ∧ matchPattern "rules/sub/b.mdc".data "rules/**".data = some true
    ∧ matchPattern "rule/a.mdc".data "rules/**".data = some false
    ∧ (∀ P : List Char, matchPattern P "mcp.json".data = some true ↔
        P = "mcp.json".data) := by
  refine ⟨?_, by decide, by decide, by decide, ?_⟩
  · intro P h
    unfold matchPattern
    by_cases hp : "**".data = P
    · rw [if_pos hp]
    · rw [if_neg hp]
      show some (globMatch [RTok.starAll] P) = some true
      show some (starLoopAll (globMatch []) P) = some true
      rw [starLoopAll_total P h]
  · intro P
    constructor
    · intro hm
      unfold matchPattern at hm
      by_cases hp : "mcp.json".data = P
      · exact hp.symm
      · rw [if_neg hp] at hm
        have hc : compileGlob "mcp.json".data = some ("mcp.json".data.map RTok.lit) := by
          decide
        rw [hc] at hm
        exact (globMatch_lits_eq _ _).mp (Option.some.injEq _ _ ▸ hm)
    · intro hp
      subst hp
      decide

/-- Witness for the amended C3 theorem at a concrete path. -/
theorem c3_witness : matchPattern "abc".data "**".data = some true :=
  c3_matcher_properties.1 "abc".data (by decide)

/-! ## C7 -/

/-- C7: a not-found listing yields the empty list, any other non-success
status raises a transport error carrying the status code, and the
traversal over a tree whose root listing is not found returns the empty
map without raising. -/
theorem c7_listDirectory_not_found :
    (∀ resp : ListResponse, resp.status = 404 → listDirectory resp = Except.ok [])
    ∧ (∀ resp : ListResponse, responseOk resp.status = false → resp.status ≠ 404 →
        listDirectory resp = Except.error resp.status)
    ∧ (∀ patterns : List (List Char), fetchAllFiles patterns RNode.missing = Except.ok []) := by
  refine ⟨?_, ?_, ?_⟩
  · intro resp h
    unfold listDirectory
    rw [h]
    have h404 : responseOk 404 = false := by decide
    simp [h404]
  · intro resp h1 h2
    unfold listDirectory
    rw [h1, if_neg h2]
    rfl
  · intro patterns
    rfl

/-- Witness for C7 at concrete responses and the default patterns. -/
theorem c7_witness :
    listDirectory ⟨404, []⟩ = Except.ok []
    ∧ listDirectory ⟨500, []⟩ = Except.error 500
    ∧ fetchAllFiles defaultPatterns RNode.missing = Except.ok [] :=
  ⟨c7_listDirectory_not_found.1 ⟨404, []⟩ rfl,
   c7_listDirectory_not_found.2.1 ⟨500, []⟩ (by decide) (by decide),
   c7_listDirectory_not_found.2.2 defaultPatterns⟩

/-! ## C8 -/

/-- C8: the claim fails on the code for the shorthand shape.  The
repository group of the anchored shorthand regex excludes dots, so the
shorthand naming the repository with a dot-git suffix matches no shape
and parses to none instead of stripping the suffix. -/
theorem c8_counterexample :
    parseRepoUrl "user/repo.git".data = none := by
  decide

/-- C8 (amended): the three shapes are tried in order and the first
match wins; the web and SSH-like shapes yield the repository name
without the dot-git suffix (their repository group stops at the first
dot); the shorthand shape rejects a repository name containing a dot, so
a shorthand with the dot-git suffix parses to none; total non-match and
the empty string parse to none. -/
theorem c8_parseRepoUrl_shapes :
    parseRepoUrl "user/repo".data = some ⟨"user".data, "repo".data⟩
    ∧ parseRepoUrl "user/repo.git".data = none
    ∧ parseRepoUrl "https://github.com/user/repo.git".data =
        some ⟨"user".data, "repo".data⟩
    ∧ parseRepoUrl "git@github.com:user/repo.git".data =
        some ⟨"user".data, "repo".data⟩
    ∧ parseRepoUrl "github.com/x".data = some ⟨"github.com".data, "x".data⟩
    ∧ parseRepoUrl "".data = none
    ∧ parseRepoUrl "plainstring".data = none := by
  decide

/-! ## C10 -/

/-- C10: the pattern consisting of a lone opening parenthesis is passed
through the replace chain unescaped, the RegExp constructor raises on it,
and matchPattern therefore raises for every path other than the pattern
itself (the exact-match fast path precedes regex construction). -/
theorem c10_matchPattern_raises (path : List Char) (h : path ≠ "(".data) :
    matchPattern path "(".data = none := by
  unfold matchPattern
  rw [if_neg (fun he => h he.symm)]
  rfl

/-- Witness for C10 at a concrete path. -/
theorem c10_witness :
    "x".data ≠ "(".data ∧ matchPattern "x".data "(".data = none :=
  ⟨by decide, c10_matchPattern_raises "x".data (by decide)⟩

/-! ## C4 -/

/-- C4: path mapping round-trips for every sync root (a normalized
absolute path) and every remote-relative path (slash-separated nonempty
segments without dot segments, as git tree paths are), including the
distinguished root rules file, which maps beside the sync root and back. -/
theorem c4_roundtrip (p root : List Char)
    (hroot : validAbsPath root = true) (hp : validRelPath p = true) :
    mapToRemotePath (mapToLocalPath p root) root = p := by
  obtain ⟨r0, rfl, hr0⟩ : ∃ r0, root = '/' :: r0 ∧ validRelPath r0 = true := by
    cases root with
    | nil => simp [validAbsPath] at hroot
    | cons c rest =>
      simp only [validAbsPath, Bool.and_eq_true, decide_eq_true_eq] at hroot
      exact ⟨rest, by rw [hroot.1], hroot.2⟩
  have hRv : ∀ s ∈ splitSegs r0, validSeg s = true := splitSegs_valid hr0
  have hRs : ∀ s ∈ splitSegs r0, '/' ∉ s := splitSegs_no_slash r0
  have hRne : splitSegs r0 ≠ [] := splitSegs_ne_nil r0
  have hr0join : r0 = joinSegs (splitSegs r0) := (joinSegs_splitSegs r0).symm
  have hdir : dirname ('/' :: r0) = '/' :: joinSegs (splitSegs r0).dropLast := by
    conv_lhs => rw [hr0join]
    exact dirname_abs (splitSegs r0) hRne hRs
  have hcrsegs : splitSegs (".cursorrules".data) = [".cursorrules".data] := by
    decide
  have hparent : pathJoin (dirname ('/' :: r0)) (".cursorrules".data) =
      '/' :: joinSegs ((splitSegs r0).dropLast ++ [".cursorrules".data]) := by
    rw [hdir, pathJoin_abs (splitSegs r0).dropLast (".cursorrules".data)
      (fun s hs => hRv s ((List.dropLast_sublist (splitSegs r0)).subset hs))
      (fun s hs => hRs s ((List.dropLast_sublist (splitSegs r0)).subset hs))
      (by decide), hcrsegs]
  by_cases hpcr : p = ".cursorrules".data
  · subst hpcr
    unfold mapToLocalPath mapToRemotePath
    rw [if_pos rfl, if_pos rfl]
  · have hPv := splitSegs_valid hp
    have hPs := splitSegs_no_slash p
    have hPne := splitSegs_ne_nil p
    have hlocal : mapToLocalPath p ('/' :: r0) =
        '/' :: joinSegs (splitSegs r0 ++ splitSegs p) := by
      unfold mapToLocalPath
      rw [if_neg hpcr]
      conv_lhs => rw [hr0join]
      exact pathJoin_abs (splitSegs r0) p hRv hRs hp
    have hne2 : ('/' :: joinSegs (splitSegs r0 ++ splitSegs p) : List Char) ≠
        pathJoin (dirname ('/' :: r0)) (".cursorrules".data) := by
      rw [hparent]
      intro heq
      have heq2 : joinSegs (splitSegs r0 ++ splitSegs p) =
          joinSegs ((splitSegs r0).dropLast ++ [".cursorrules".data]) := by
        injection heq
      have hs1 : splitSegs (joinSegs (splitSegs r0 ++ splitSegs p)) =
          splitSegs r0 ++ splitSegs p := by
        apply splitSegs_joinSegs _ (by simp [hRne])
        intro s hs
        rcases List.mem_append.mp hs with h2 | h2
        · exact hRs s h2
        · exact hPs s h2
      have hs2 : splitSegs (joinSegs ((splitSegs r0).dropLast ++
          [".cursorrules".data])) = (splitSegs r0).dropLast ++ [".cursorrules".data] := by
        apply splitSegs_joinSegs _ (by simp)
        intro s hs
        rcases List.mem_append.mp hs with h2 | h2
        · exact hRs s ((List.dropLast_sublist (splitSegs r0)).subset h2)
        · rcases List.mem_singleton.mp h2 with rfl
          decide
      rw [heq2, hs2] at hs1
      have hlen := congrArg List.length hs1
      simp only [List.length_append, List.length_dropLast, List.length_singleton] at hlen
      have hR1 : 1 ≤ (splitSegs r0).length := by
        cases hsr : splitSegs r0 with
        | nil => exact absurd hsr hRne
        | cons a b => simp
      have hP1 : 1 ≤ (splitSegs p).length := by
        cases hsp : splitSegs p with
        | nil => exact absurd hsp hPne
        | cons a b => simp
      omega
    have hrel : relPath ('/' :: r0) ('/' :: joinSegs (splitSegs r0 ++ splitSegs p)) =
        p := by
      nth_rewrite 1 [hr0join]
      rw [relPath_abs (splitSegs r0) (splitSegs p) hRv hRs hPv hPs hRne]
      exact joinSegs_splitSegs p
    rw [hlocal]
    unfold mapToRemotePath
    rw [if_neg hne2]
    exact hrel

/-- Witness for C4 at a concrete root and two concrete remote paths. -/
theorem c4_witness :
    validAbsPath "/home/u/.cursor".data = true
    ∧ validRelPath "rules/a.mdc".data = true
    ∧ mapToRemotePath (mapToLocalPath "rules/a.mdc".data "/home/u/.cursor".data)
        "/home/u/.cursor".data = "rules/a.mdc".data
    ∧ validRelPath ".cursorrules".data = true
    ∧ mapToRemotePath (mapToLocalPath ".cursorrules".data "/home/u/.cursor".data)
        "/home/u/.cursor".data = ".cursorrules".data :=
  ⟨by decide, by decide,
   c4_roundtrip "rules/a.mdc".data "/home/u/.cursor".data (by decide) (by decide),
   by decide,
   c4_roundtrip ".cursorrules".data "/home/u/.cursor".data (by decide) (by decide)⟩

/-! ## C5 -/

/-- C5: every SyncResult returned by pull or push satisfies the aggregate
invariant: success holds exactly when the error list is empty.  The
catch-path results carry one error and a false success flag; the loop
path sets success from the emptiness of the accumulated errors; recorded
conflicts do not enter the error list. -/
theorem c5_success_iff_no_errors (env : SyncEnv) (target : SyncTarget) (s0 : SyncState) :
    ((pull env target s0).result.success = true ↔ (pull env target s0).result.errors = [])
    ∧ ((push env target s0).result.success = true ↔ (push env target s0).result.errors = []) := by
  constructor
  · unfold pull
    cases getTargetPath env target with
    | error m => simp
    | ok targetPath =>
      cases fetchAllFiles env.filesToSync env.remote with
      | error e => simp
      | ok remoteFiles => simp [List.isEmpty_iff]
  · unfold push
    by_cases ht : env.githubToken = []
    · simp [ht]
    · cases hg : getTargetPath env target with
      | error m => simp [ht, hg]
      | ok targetPath =>
        by_cases hd : env.targetDirExists = false
        · simp [ht, hg, hd]
        · cases hc : collectLocalFiles env env.filesToSync with
          | error e => simp [ht, hg, hd, hc]
          | ok localFiles => simp [ht, hg, hd, hc, List.isEmpty_iff]

/-! ## C6 -/

/-- C6: a push invoked without a configured token aborts before touching
any file: exactly one error, no file processed, and no create-or-update
call issued. -/
theorem c6_push_without_token (env : SyncEnv) (target : SyncTarget) (s0 : SyncState)
    (h : env.githubToken = []) :
    (push env target s0).result.errors = [tokenRequiredMsg]
    ∧ (push env target s0).result.filesProcessed = 0
    ∧ (push env target s0).pushed = [] := by
  unfold push
  simp [h]

/-- Witness for C6 at a concrete environment without a token. -/
theorem c6_witness :
    c1Env.githubToken = []
    ∧ (push c1Env SyncTarget.global getDefaultState).result.errors = [tokenRequiredMsg]
    ∧ (push c1Env SyncTarget.global getDefaultState).result.filesProcessed = 0
    ∧ (push c1Env SyncTarget.global getDefaultState).pushed = [] := by
  refine ⟨rfl, ?_⟩
  exact c6_push_without_token c1Env SyncTarget.global getDefaultState rfl

/-! ## C9 -/

/-- C9: when a setup precondition aborts the operation (missing workspace
folder for a workspace-target pull, missing token for a push, missing
target directory for a push), the state written by the catch block merges
only the error message, so the four other persisted fields keep their
previous values. -/
theorem c9_error_only_state_update (env : SyncEnv) (s0 : SyncState) :
    (env.workspaceRoot = none →
      (pull env SyncTarget.workspace s0).state =
        { s0 with lastError := some "No workspace folder open".data })
    ∧ (env.githubToken = [] → ∀ target,
      (push env target s0).state = { s0 with lastError := some tokenRequiredMsg })
    ∧ (env.githubToken ≠ [] → env.targetDirExists = false →
      (push env SyncTarget.global s0).state =
        { s0 with lastError := some (missingDirMsg (pathJoin env.homeDir ".cursor".data)) }) := by
  refine ⟨?_, ?_, ?_⟩
  · intro hw
    unfold pull getTargetPath
    rw [hw]
    simp [updateSyncState, errorPatch]
  · intro ht target
    unfold push
    simp [ht, updateSyncState, errorPatch]
  · intro ht hd
    unfold push getTargetPath
    simp [ht, hd, updateSyncState, errorPatch]

/-- Witness for C9 at concrete environments for the three abort causes. -/
theorem c9_witness :
    c9Env.workspaceRoot = none
    ∧ (pull c9Env SyncTarget.workspace getDefaultState).state =
        { getDefaultState with lastError := some "No workspace folder open".data }
    ∧ c1Env.githubToken = []
    ∧ (push c1Env SyncTarget.global getDefaultState).state =
        { getDefaultState with lastError := some tokenRequiredMsg }
    ∧ c9Env.githubToken ≠ []
    ∧ c9Env.targetDirExists = false
    ∧ (push c9Env SyncTarget.global getDefaultState).state =
        { getDefaultState with lastError := some (missingDirMsg (pathJoin c9Env.homeDir ".cursor".data)) } :=
  ⟨rfl,
   (c9_error_only_state_update c9Env getDefaultState).1 rfl,
   rfl,
   (c9_error_only_state_update c1Env getDefaultState).2.1 rfl SyncTarget.global,
   by decide,
   rfl,
   (c9_error_only_state_update c9Env getDefaultState).2.2 (by decide) rfl⟩

end CursorSync
